import Mathlib

/-!
Verification development for the text-to-project generator
(CodeExtractor in `js/core/UIManager.js` and FileOrganizer).

The JavaScript source is shallowly embedded: strings are Lean `String`s,
JS objects become structures, the mutable organizer state becomes explicit
state passing, and the nondeterministic stamps (`Date.now()`,
`Math.random()`, `new Date().toISOString()`) are modelled by an explicit
monotone counter threaded through the computation: each call to the stamp
source draws the current counter value and advances it.  `new Blob([c]).size`
is the UTF-8 byte size of `c`.

JS regular expressions are modelled by hand-written scanners that are
faithful on the pattern fragments the source actually uses
(`package\s+[^;]+;?`, `import\s+[^;]+;?`, `package\s+[a-zA-Z][a-zA-Z0-9_.]*`,
`class\s+(\w+)[^{]*\{`, fixed-width patterns whose only metacharacter
is the dot, and the numbered-header pattern `^\d+\.\s*(.+?)$` restricted
to line-local matches).
-/

/-- JS `\s` whitespace class (ASCII part; the unicode spaces JS also
accepts are not modelled). -/
def isWsChar (c : Char) : Bool :=
  c = ' ' || c = '\t' || c = '\n' || c = '\r' || c = '\x0b' || c = '\x0c'

/-- JS `\w` word-character class. -/
def isWordChar (c : Char) : Bool :=
  c.isAlpha || c.isDigit || c = '_'

/-- JS `Array.prototype.join(sep)`. -/
def joinSep (sep : String) : List String → String
  | [] => ""
  | [s] => s
  | s :: t :: rest => s ++ sep ++ joinSep sep (t :: rest)

/-- Order-preserving de-duplication, keeping the first occurrence:
the behaviour of feeding a JS array through `new Set` and back. -/
def dedupFirstGo : Nat → List String → List String
  | _, [] => []
  | 0, _ :: _ => []
  | fuel + 1, a :: rest => a :: dedupFirstGo fuel (rest.filter (fun x => x ≠ a))

/-- Order-preserving de-duplication; the fuel `l.length` is sufficient
because each step recurses on a filtered tail, so the fuel-exhausted
case is unreachable. -/
def dedupFirst (l : List String) : List String := dedupFirstGo l.length l

/-- Exact (literal) prefix match of `pat` against `s`. -/
def litPrefix : List Char → List Char → Bool
  | [], _ => true
  | _ :: _, [] => false
  | p :: ps, c :: cs => p = c && litPrefix ps cs

/-- Does `pat` occur (literally) anywhere in `s`? -/
def occursIn (pat : List Char) : List Char → Bool
  | [] => pat.isEmpty
  | c :: cs => litPrefix pat (c :: cs) || occursIn pat cs

/-- String-level literal substring test. -/
def hasSubstr (s pat : String) : Bool := occursIn pat.data s.data

/-- Number of (possibly overlapping) positions at which `pat` occurs in `s`. -/
def countOccAux (pat : List Char) : List Char → Nat
  | [] => if pat.isEmpty then 1 else 0
  | c :: cs => (if litPrefix pat (c :: cs) then 1 else 0) + countOccAux pat cs

/-- Number of positions at which `pat` occurs in `s`. -/
def countOcc (pat s : String) : Nat := countOccAux pat.data s.data

/-- JS `String.prototype.trim` (over the modelled whitespace set);
defined over the character list so that it evaluates in the kernel. -/
def jsTrim (s : String) : String :=
  String.mk (((s.data.dropWhile isWsChar).reverse.dropWhile isWsChar).reverse)

/-- ASCII lower-casing (JS `toLowerCase` on the ASCII range). -/
def lowerStr (s : String) : String := String.mk (s.data.map Char.toLower)

/-- Split a character list at every occurrence of `c` (JS `split`). -/
def splitAux (c : Char) : List Char → List (List Char)
  | [] => [[]]
  | x :: xs =>
    match splitAux c xs with
    | [] => [[]]
    | h :: t => if x = c then [] :: h :: t else (x :: h) :: t

/-- JS `input.split("\n")`. -/
def splitLines (s : String) : List String := (splitAux '\n' s.data).map String.mk

/-- JS `String.prototype.startsWith`. -/
def strStartsWith (s pre : String) : Bool := litPrefix pre.data s.data

/-- JS `String.prototype.endsWith`. -/
def strEndsWith (s suf : String) : Bool := litPrefix suf.data.reverse s.data.reverse

/-- Drop `pre` from the front of `s` when it is an exact prefix. -/
def dropPref : List Char → List Char → Option (List Char)
  | [], s => some s
  | _ :: _, [] => none
  | p :: ps, c :: cs => if p = c then dropPref ps cs else none

theorem dropPref_length {pre s r : List Char} (h : dropPref pre s = some r) :
    s.length = pre.length + r.length := by
  induction pre generalizing s with
  | nil => simp [dropPref] at h; simp [h]
  | cons p ps ih =>
    cases s with
    | nil => simp [dropPref] at h
    | cons c cs =>
      simp only [dropPref] at h
      split at h
      · have := ih h
        simp [List.length_cons, this]
        omega
      · exact absurd h (by simp)

/-! ## Extractor (CodeExtractor in js/core/UIManager.js)

The numbered-header pattern is `/^\d+\.\s*(.+?)$/gm`.  For a line of the
form `digits "." rest` where `rest` is not pure whitespace, the match is
line-local: it covers the whole line and captures the title from the
first non-whitespace character of `rest` to the end of the line, which
after the source's `.trim()` equals `rest.trim`.  `lineSafe` below marks
the lines on which this line-local reading is exact; the theorems about
the extractor assume every line of the input is safe. -/

/-- Title of a line-local numbered-header match: the line must start
with one or more digits followed by a period, and the remainder must not
be pure whitespace; the title is the trimmed remainder. -/
def headerTitleOf (l : String) : Option String :=
  let cs := l.data
  let ds := cs.takeWhile Char.isDigit
  if ds.isEmpty then none
  else
    match cs.drop ds.length with
    | '.' :: rest =>
      let t := jsTrim (String.mk rest)
      if t.isEmpty then none else some t
    | _ => none

/-- Does the line start with `digits+ "."` (a candidate header start)? -/
def startsNumbered (l : String) : Bool :=
  let cs := l.data
  let ds := cs.takeWhile Char.isDigit
  !ds.isEmpty &&
    (match cs.drop ds.length with
     | '.' :: _ => true
     | _ => false)

/-- A line on which the line-local reading of the header regex is exact:
either it is not a candidate header start at all, or it is a well-formed
header (non-whitespace title), so the match cannot leak onto later lines. -/
def lineSafe (l : String) : Bool :=
  !(startsNumbered l) || (headerTitleOf l).isSome

/-- `findHeaders`: ordered list of `(line index, trimmed title)` pairs,
one per header line, in source order. -/
def headerIdxs (lines : List String) : List (Nat × String) :=
  lines.enum.filterMap (fun p => (headerTitleOf p.2).map (fun t => (p.1, t)))

/-- The raw content of the section of the header at line `i` whose next
header sits at line `j` (or `j = lines.length` for the last header): the
text strictly between the two header lines, trimmed.  This equals the
source's `input.substring(end of header match, start of next match).trim()`
because the header match covers exactly its line. -/
def sectionBetween (lines : List String) (i j : Nat) : String :=
  jsTrim (joinSep "\n" ((lines.drop (i + 1)).take (j - i - 1)))

/-- Pair each header with its raw trimmed section content, in header order. -/
def sectionsGo (lines : List String) : List (Nat × String) → List (String × String)
  | [] => []
  | (i, t) :: rest =>
    let j := match rest with
      | [] => lines.length
      | (j, _) :: _ => j
    (t, sectionBetween lines i j) :: sectionsGo lines rest

/-- All `(title, raw trimmed content)` sections of the input, in header order. -/
def sectionsOf (lines : List String) : List (String × String) :=
  sectionsGo lines (headerIdxs lines)

/-- The language-marker words of `cleanCode`, in the source's alternation order. -/
def languageMarkerWords : List String :=
  ["KOTLIN", "JAVA", "JAVASCRIPT", "HTML", "CSS", "JSON", "XML", "YAML",
   "SQL", "PYTHON", "PHP", "C++", "C#", "SWIFT", "GO", "RUST", "TYPESCRIPT"]

/-- Does the whitespace run at the front of `cs` contain a newline? -/
def wsRunHasNl (cs : List Char) : Bool :=
  (cs.takeWhile isWsChar).contains '\n'

/-- Drop the leading whitespace run of `cs` up to and including its last
newline (the greedy match of `\s*\n` backtracks to the last newline of the run). -/
def dropThroughLastNl (cs : List Char) : List Char :=
  let run := cs.takeWhile isWsChar
  let rest := cs.drop run.length
  (run.reverse.takeWhile (fun c => c ≠ '\n')).reverse ++ rest

/-- Strip a leading language-marker line, per
`/^(KOTLIN|JAVA|...)\s*\n/i`: the first alternation word that is a
case-insensitive prefix and is followed by whitespace containing a
newline is removed together with that whitespace up to its last newline. -/
def stripLanguageMarker (s : String) : String :=
  match languageMarkerWords.find? (fun w =>
      lowerStr (String.mk (s.data.take w.length)) = lowerStr w
        && wsRunHasNl (s.data.drop w.length)) with
  | some w => String.mk (dropThroughLastNl (s.data.drop w.length))
  | none => s

/-- Strip a leading markdown fence, per the source's
`content.replace(/^\x60\x60\x60[\w]*\n/, '')`. -/
def stripOpenFence (s : String) : String :=
  match s.data with
  | '\x60' :: '\x60' :: '\x60' :: rest =>
    let w := rest.takeWhile isWordChar
    (match rest.drop w.length with
     | '\n' :: r2 => String.mk r2
     | _ => s)
  | _ => s

/-- Strip a trailing markdown fence, per `content.replace(/\n\x60\x60\x60$/, '')`. -/
def stripCloseFence (s : String) : String :=
  match s.data.reverse with
  | '\x60' :: '\x60' :: '\x60' :: '\n' :: rrest => String.mk rrest.reverse
  | _ => s

/-- `cleanCode`: remove a leading language marker, then a leading and a
trailing markdown fence, then trim. -/
def cleanCode (s : String) : String :=
  jsTrim (stripCloseFence (stripOpenFence (stripLanguageMarker s)))

/-- One extracted file record.  Of the source's record only the fields the
claims mention are modelled: the header title (`originalTitle`) and the
section `content`.  Name derivation, language detection, sizes, ids and
timestamps are not referred to by any claim and are omitted. -/
structure ExtractRecord where
  title : String
  content : String
deriving Repr, DecidableEq

/-- The two fatal extraction failures (`throw new Error(...)` in the source,
distinguished by their messages). -/
inductive ExtractError where
  | emptyInput
  | noHeadersFound
deriving Repr, DecidableEq

/-- `extractFileSection`: skip the section when its trimmed content is
empty (checked before cleanup, as in the source), otherwise produce a
record whose content is optionally cleaned. -/
def extractFileSection (cleanOpt : Bool) (p : String × String) : Option ExtractRecord :=
  if p.2.isEmpty then none
  else some ⟨p.1, if cleanOpt then cleanCode p.2 else p.2⟩

/-- The synthesized manifest record (`generateConfigFile`).  Its body in the
source is a timestamped JSON rendering of the extraction batch; no claim
refers to that body, and it depends on the wall clock, so only the record's
existence, title and final position are modelled and its content is left
empty here. -/
def generateConfigFile : ExtractRecord :=
  ⟨"Configurazione Progetto", ""⟩

/-- `extractFiles`: fail on empty/whitespace-only input, fail when no
numbered header is found, otherwise produce one record per non-empty
section in header order, appending the manifest when `generateConfig`
is set and at least one file was extracted. -/
def extractFiles (input : String) (generateConfig cleanOpt : Bool) :
    Except ExtractError (List ExtractRecord) :=
  if (jsTrim input).isEmpty then .error .emptyInput
  else
    let lines := splitLines input
    let hs := headerIdxs lines
    if hs.isEmpty then .error .noHeadersFound
    else
      let files := (sectionsOf lines).filterMap (extractFileSection cleanOpt)
      if generateConfig && !files.isEmpty then .ok (files ++ [generateConfigFile])
      else .ok files

/-! ## Regex scanners for the organizer

Hand-written models of the regular expressions used by FileOrganizer:
`/package\s+[^;]+;?/`, `/import\s+[^;]+;?/g` (with an optional trailing
`\s*` in the stripping variants), `/package\s+[a-zA-Z][a-zA-Z0-9_.]*/`,
`/class\s+NAME/g` and the class-declaration pattern of the splitter.
The pattern `kw\s+[^;]+;?` matched at a position where `kw` is an exact
prefix consumes, after `kw`, exactly the maximal run `p` of
non-semicolon characters (greedy `\s+` then greedy `[^;]+`, with one
character of backtracking when `p` is pure whitespace), and it succeeds
exactly when `p` starts with whitespace and has at least two
characters; an optional `;` follows. -/

/-- Does the list start with a whitespace character? -/
def isWsHead : List Char → Bool
  | [] => false
  | c :: _ => isWsChar c

/-- At-position match of `kw ++ \s+[^;]+;?`; returns (matched, rest). -/
def kwSemiMatchAt (kw : List Char) (s : List Char) : Option (List Char × List Char) :=
  match dropPref kw s with
  | none => none
  | some rest =>
    let p := rest.takeWhile (fun c => c ≠ ';')
    if isWsHead p && decide (2 ≤ p.length) then
      match rest.drop p.length with
      | ';' :: r3 => some (kw ++ p ++ [';'], r3)
      | r2 => some (kw ++ p, r2)
    else none

theorem kwSemiMatchAt_length {kw s m r : List Char}
    (h : kwSemiMatchAt kw s = some (m, r)) : r.length < s.length := by
  unfold kwSemiMatchAt at h
  cases hd : dropPref kw s with
  | none => rw [hd] at h; exact absurd h (by simp)
  | some rest =>
    rw [hd] at h
    have hlen := dropPref_length hd
    simp only [] at h
    split at h
    · rename_i hguard
      have h2 : 2 ≤ (rest.takeWhile (fun c => c ≠ ';')).length :=
        of_decide_eq_true ((Bool.and_eq_true _ _).mp hguard).2
      have hle : (rest.takeWhile (fun c => c ≠ ';')).length ≤ rest.length :=
        (List.takeWhile_prefix _).length_le
      have hdl : (rest.drop (rest.takeWhile (fun c => c ≠ ';')).length).length
          = rest.length - (rest.takeWhile (fun c => c ≠ ';')).length :=
        List.length_drop _ _
      split at h
      · rename_i r3 hr3
        cases h
        rw [hr3] at hdl
        simp only [List.length_cons] at hdl
        omega
      · cases h
        omega
    · exact absurd h (by simp)

/-- All (non-overlapping, leftmost) matches of `kw\s+[^;]+;?` in `s`
(global scan, resuming after each match). -/
def kwSemiMatchesGo (kw : List Char) : Nat → List Char → List (List Char)
  | _, [] => []
  | 0, _ :: _ => []
  | fuel + 1, c :: cs =>
    match kwSemiMatchAt kw (c :: cs) with
    | some (m, r) => m :: kwSemiMatchesGo kw fuel r
    | none => kwSemiMatchesGo kw fuel cs

/-- All matches; the fuel `s.length` is sufficient because every step
consumes at least one character (`kwSemiMatchAt_length`). -/
def kwSemiMatches (kw s : List Char) : List (List Char) := kwSemiMatchesGo kw s.length s

/-- First match of `kw\s+[^;]+;?` in `s`, when any. -/
def kwSemiFirst (kw : List Char) (s : List Char) : Option (List Char) :=
  match s with
  | [] => none
  | c :: cs =>
    match kwSemiMatchAt kw (c :: cs) with
    | some (m, _) => some m
    | none => kwSemiFirst kw cs

/-- `s.replace(/kw\s+[^;]+;?\s*/, '')`: remove the first match together
with the whitespace following it, leaving the remainder untouched. -/
def stripKwSemiFirst (kw : List Char) (s : List Char) : List Char :=
  match s with
  | [] => []
  | c :: cs =>
    match kwSemiMatchAt kw (c :: cs) with
    | some (_, r) => r.dropWhile isWsChar
    | none => c :: stripKwSemiFirst kw cs

/-- `s.replace(/kw\s+[^;]+;?\s*/g, '')`: remove every match together
with the whitespace following it. -/
def stripKwSemiAllGo (kw : List Char) : Nat → List Char → List Char
  | _, [] => []
  | 0, l => l
  | fuel + 1, c :: cs =>
    match kwSemiMatchAt kw (c :: cs) with
    | some (_, r) => stripKwSemiAllGo kw fuel (r.dropWhile isWsChar)
    | none => c :: stripKwSemiAllGo kw fuel cs

/-- Global strip; the fuel `s.length` is sufficient because every step
consumes at least one character. -/
def stripKwSemiAll (kw s : List Char) : List Char := stripKwSemiAllGo kw s.length s

/-- Characters allowed after the first letter in `package\s+[a-zA-Z][a-zA-Z0-9_.]*`. -/
def isPkgNameChar (c : Char) : Bool :=
  c.isAlpha || c.isDigit || c = '_' || c = '.'

/-- At-position match of `package\s+[a-zA-Z][a-zA-Z0-9_.]*`; returns the rest. -/
def pkgDeclMatchAt (s : List Char) : Option (List Char) :=
  match dropPref "package".data s with
  | none => none
  | some rest =>
    let w := rest.takeWhile isWsChar
    if w.isEmpty then none
    else
      match rest.drop w.length with
      | c :: cs => if c.isAlpha then some (cs.dropWhile isPkgNameChar) else none
      | [] => none

/-- `s.replace(/package\s+[a-zA-Z][a-zA-Z0-9_.]*\x2f, "package NAME")`
(first match only). -/
def replacePkgDecl (newPkg : String) (s : List Char) : List Char :=
  match s with
  | [] => []
  | c :: cs =>
    match pkgDeclMatchAt (c :: cs) with
    | some r => ("package " ++ newPkg).data ++ r
    | none => c :: replacePkgDecl newPkg cs

/-- String-level wrapper for the `updatePackage` rewrite. -/
def updatePackageDecl (newPkg s : String) : String :=
  String.mk (replacePkgDecl newPkg s.data)

/-- At-position match of `class\s+OLD` (OLD a literal class name, as built
by `new RegExp("class\\s+" + oldClassName, "g")`); returns the rest. -/
def classTokenMatchAt (old : List Char) (s : List Char) : Option (List Char) :=
  match dropPref "class".data s with
  | none => none
  | some rest =>
    let w := rest.takeWhile isWsChar
    if w.isEmpty then none
    else dropPref old (rest.drop w.length)

theorem classTokenMatchAt_length {old s r : List Char}
    (h : classTokenMatchAt old s = some r) : r.length < s.length := by
  unfold classTokenMatchAt at h
  cases hd : dropPref "class".data s with
  | none => rw [hd] at h; exact absurd h (by simp)
  | some rest =>
    rw [hd] at h
    have hlen := dropPref_length hd
    simp only [] at h
    split at h
    · exact absurd h (by simp)
    · rename_i hw
      have hwle : (rest.takeWhile isWsChar).length ≤ rest.length :=
        (List.takeWhile_prefix _).length_le
      have hw1 : 1 ≤ (rest.takeWhile isWsChar).length := by
        cases hq : rest.takeWhile isWsChar with
        | nil => rw [hq] at hw; simp at hw
        | cons a b => simp [hq]
      have hr := dropPref_length h
      have : (rest.drop (rest.takeWhile isWsChar).length).length
          = rest.length - (rest.takeWhile isWsChar).length := List.length_drop _ _
      simp only [String.data] at hlen
      omega

/-- Global replacement of `class\s+OLD` by `"class " ++ NEW`, continuing
after each match in the original text. -/
def replaceClassTokensGo (old newName : List Char) : Nat → List Char → List Char
  | _, [] => []
  | 0, l => l
  | fuel + 1, c :: cs =>
    match classTokenMatchAt old (c :: cs) with
    | some r => ("class ".data ++ newName) ++ replaceClassTokensGo old newName fuel r
    | none => c :: replaceClassTokensGo old newName fuel cs

/-- Global class-token replacement; the fuel `s.length` is sufficient
because every step consumes at least one character
(`classTokenMatchAt_length`). -/
def replaceClassTokens (old newName s : List Char) : List Char :=
  replaceClassTokensGo old newName s.length s

/-! ## The `new RegExp(find, "g")` replacement engine of contentUpdates

The source compiles the `find` string of a replacement rule as a regular
expression, not as a literal.  We model the fragment of JS regular
expressions in which the only metacharacter occurring in `find` is the
dot (which matches any character except a line terminator); all other
characters match themselves.  Patterns in this fragment have fixed
width, so leftmost global matching needs no backtracking.  Replacement
strings are inserted verbatim (`$`-substitutions are not modelled). -/

/-- One pattern character against one subject character: `.` is the
wildcard, everything else is literal. -/
def patChar (p c : Char) : Bool :=
  if p = '.' then c != '\n' else p == c

/-- Match the whole pattern at the current position; returns the rest. -/
def dotMatchPat : List Char → List Char → Option (List Char)
  | [], s => some s
  | _ :: _, [] => none
  | p :: ps, c :: cs => if patChar p c then dotMatchPat ps cs else none

theorem dotMatchPat_length {pat s r : List Char} (h : dotMatchPat pat s = some r) :
    s.length = pat.length + r.length := by
  induction pat generalizing s with
  | nil => simp [dotMatchPat] at h; simp [h]
  | cons p ps ih =>
    cases s with
    | nil => simp [dotMatchPat] at h
    | cons c cs =>
      simp only [dotMatchPat] at h
      split at h
      · have := ih h
        simp [List.length_cons, this]
        omega
      · exact absurd h (by simp)

/-- Global leftmost replacement for a non-empty dot-fragment pattern. -/
def gReplaceAuxGo (p : Char) (ps repl : List Char) : Nat → List Char → List Char
  | _, [] => []
  | 0, l => l
  | fuel + 1, c :: cs =>
    match dotMatchPat (p :: ps) (c :: cs) with
    | some r => repl ++ gReplaceAuxGo p ps repl fuel r
    | none => c :: gReplaceAuxGo p ps repl fuel cs

/-- Global leftmost replacement for a non-empty dot-fragment pattern;
the fuel `s.length` is sufficient because every step consumes at least
one character (`dotMatchPat_length`). -/
def gReplaceAux (p : Char) (ps repl s : List Char) : List Char :=
  gReplaceAuxGo p ps repl s.length s

/-- `s.replace(new RegExp(find, "g"), repl)` on the dot fragment.  An
empty `find` compiles to a regex matching the empty string at every
position, so the replacement is inserted at every boundary. -/
def jsGlobalReplace (pat repl s : String) : String :=
  match pat.data with
  | [] => String.mk (repl.data ++ (s.data.map (fun c => c :: repl.data)).flatten)
  | p :: ps => String.mk (gReplaceAux p ps repl.data s.data)

/-- Modelled from the spec: literal, non-regex global find/replace
("applies an ordered list of find/replace pairs (literal pattern
semantics, global)"), used to compare the source's regex-based
behaviour against the specified literal behaviour. -/
def litReplaceAuxGo (p : Char) (ps repl : List Char) : Nat → List Char → List Char
  | _, [] => []
  | 0, l => l
  | fuel + 1, c :: cs =>
    match dropPref (p :: ps) (c :: cs) with
    | some r => repl ++ litReplaceAuxGo p ps repl fuel r
    | none => c :: litReplaceAuxGo p ps repl fuel cs

/-- Literal global replacement for a non-empty pattern; the fuel
`s.length` is sufficient because every step consumes at least one
character (`dropPref_length`). -/
def litReplaceAux (p : Char) (ps repl s : List Char) : List Char :=
  litReplaceAuxGo p ps repl s.length s

/-- Modelled from the spec: string-level literal global replacement
(an empty pattern is treated as matching at every boundary, as in JS). -/
def literalReplaceAll (pat repl s : String) : String :=
  match pat.data with
  | [] => String.mk (repl.data ++ (s.data.map (fun c => c :: repl.data)).flatten)
  | p :: ps => String.mk (litReplaceAux p ps repl.data s.data)

/-- The JS regex metacharacters; a `find` string avoiding them denotes
itself literally even when compiled by `new RegExp`. -/
def regexMetaChars : List Char :=
  ['.', '\\', '^', '$', '*', '+', '?', '(', ')', '[', ']', '\x7b', '\x7d', '|']

/-- A `find` string with no regex metacharacter. -/
def noMeta (s : String) : Bool :=
  s.data.all (fun c => !regexMetaChars.contains c)

/-- At-position match of the splitter's class pattern
`class\s+(\w+)[^\x7b]*\x7b`; returns (class name, consumed length, rest). -/
def classDeclMatchAt (s : List Char) : Option (String × Nat × List Char) :=
  match dropPref "class".data s with
  | none => none
  | some rest =>
    let w := rest.takeWhile isWsChar
    if w.isEmpty then none
    else
      let rest2 := rest.drop w.length
      let nm := rest2.takeWhile isWordChar
      if nm.isEmpty then none
      else
        let rest3 := rest2.drop nm.length
        let mid := rest3.takeWhile (fun c => c ≠ '\x7b')
        match rest3.drop mid.length with
        | '\x7b' :: r4 =>
          some (String.mk nm, 5 + w.length + nm.length + mid.length + 1, r4)
        | _ => none

theorem classDeclMatchAt_length {s : List Char} {nm : String} {k : Nat} {r : List Char}
    (h : classDeclMatchAt s = some (nm, k, r)) : r.length < s.length := by
  unfold classDeclMatchAt at h
  cases hd : dropPref "class".data s with
  | none => rw [hd] at h; exact absurd h (by simp)
  | some rest =>
    rw [hd] at h
    have hlen := dropPref_length hd
    simp only [] at h
    split at h
    · exact absurd h (by simp)
    · split at h
      · exact absurd h (by simp)
      · split at h
        · rename_i r4 hr4
          cases h
          have h1 : (rest.drop (rest.takeWhile isWsChar).length).length
              = rest.length - (rest.takeWhile isWsChar).length := List.length_drop _ _
          have h2 := List.length_drop
            ((rest.drop (rest.takeWhile isWsChar).length).takeWhile isWordChar).length
            (rest.drop (rest.takeWhile isWsChar).length)
          have h3 := List.length_drop
            (((rest.drop (rest.takeWhile isWsChar).length).drop
                ((rest.drop (rest.takeWhile isWsChar).length).takeWhile isWordChar).length).takeWhile
              (fun c => c ≠ '\x7b')).length
            ((rest.drop (rest.takeWhile isWsChar).length).drop
              ((rest.drop (rest.takeWhile isWsChar).length).takeWhile isWordChar).length)
          rw [hr4] at h3
          simp only [List.length_cons, String.data] at hlen h3 ⊢
          omega
        · exact absurd h (by simp)

/-- All class-declaration matches `(match index, class name)` of the
splitter, in order, resuming after each full match. -/
def classDeclMatchesGo : Nat → List Char → Nat → List (Nat × String)
  | _, [], _ => []
  | 0, _ :: _, _ => []
  | fuel + 1, c :: cs, pos =>
    match classDeclMatchAt (c :: cs) with
    | some (nm, len, r) => (pos, nm) :: classDeclMatchesGo fuel r (pos + len)
    | none => classDeclMatchesGo fuel cs (pos + 1)

/-- All class-declaration matches; the fuel `s.length` is sufficient
because every step consumes at least one character
(`classDeclMatchAt_length`). -/
def classDeclMatches (s : List Char) (pos : Nat) : List (Nat × String) :=
  classDeclMatchesGo s.length s pos

/-- The splitter's brace scan: starting at index `idx` with running depth
`depth`, after updating the depth for the current character, stop when
the depth is zero at a closing brace, returning that index plus one. -/
def braceScanGo (s : List Char) (depth : Int) (idx : Nat) : Option Nat :=
  match s with
  | [] => none
  | c :: cs =>
    let d := depth + (if c = '\x7b' then 1 else 0) - (if c = '\x7d' then 1 else 0)
    if d = 0 ∧ c = '\x7d' then some (idx + 1)
    else braceScanGo cs d (idx + 1)

def chunkListGo {α : Type} (n : Nat) : Nat → List α → List (List α)
  | _, [] => []
  | 0, _ :: _ => []
  | fuel + 1, x :: xs => (x :: xs).take n :: chunkListGo n fuel (xs.drop (n - 1))

/-- Chunk a list into runs of `n` (the `by_lines` slicing loop; `n` is
always positive at call sites because a zero `linesPerFile` is replaced
by the default 100).  The fuel `l.length` is sufficient because every
step consumes at least one element. -/
def chunkList {α : Type} (n : Nat) (l : List α) : List (List α) :=
  chunkListGo n l.length l

/-! ## Organizer data model (FileOrganizer)

JS objects become structures; absent fields become `Option`/`Bool`
defaults matching `undefined`.  The nondeterministic stamps are drawn
from the state counter: `generateId` renders the drawn value, and every
`new Date().toISOString()` is modelled as the drawn value itself. -/

/-- One replacement rule of a `contentUpdates` entry. -/
structure Replacement where
  find : String
  replace : String
deriving Repr, DecidableEq

/-- The value of one `contentUpdates` entry. -/
structure ContentUpdate where
  replacements : Option (List Replacement) := none
  addImports : Option (List String) := none
  updatePackage : Option String := none
deriving Repr, DecidableEq

/-- Per-destination modifications of a `copyToMultipleLocations` entry. -/
structure CopyMods where
  packageName : Option String := none
  className : Option String := none
  imports : Option (List String) := none
deriving Repr, DecidableEq

/-- One destination of a `copyToMultipleLocations` entry. -/
structure CopyLocation where
  folder : String
  name : Option String := none
  modifications : Option CopyMods := none
deriving Repr, DecidableEq

/-- The `mergeFiles` section: its file entries, plus the `mergeStrategy`
key that in the source lives as a sibling property of the same object.
(Iterating the raw JS object would also visit the `mergeStrategy` key
itself as if it were a file entry, a dynamic-typing failure that a typed
embedding does not reproduce; the model keeps entries and strategy apart.) -/
structure MergeSection where
  entries : List (String × List String)
  mergeStrategy : Option String := none
deriving Repr, DecidableEq

/-- The value of one `splitFiles` entry. -/
structure SplitConfig where
  strategy : String
  linesPerFile : Option Nat := none
deriving Repr, DecidableEq

/-- A parsed organization configuration: the seven recognized sections
(absent = the key is not present in the JSON), plus the remaining
top-level keys (for the unknown-section warning). -/
structure OrgConfig where
  fileRenames : Option (List (String × String)) := none
  extensionChanges : Option (List (String × String)) := none
  folderMappings : Option (List (String × String)) := none
  contentUpdates : Option (List (String × ContentUpdate)) := none
  copyToMultipleLocations : Option (List (String × List CopyLocation)) := none
  mergeFiles : Option MergeSection := none
  splitFiles : Option (List (String × SplitConfig)) := none
  otherKeys : List String := []
deriving Repr, DecidableEq

/-- One entry of a record's own `operations` trail or of the global log
(the flat JS operation objects, one constructor per `type`; `ts` models
the `timestamp` field). -/
inductive OpRecord where
  | rename (fromPath toPath : String) (ts : Nat)
  | changeExtension (fromPath toPath oldExtension newExtension : String) (ts : Nat)
  | move (fromPath toPath folder : String) (ts : Nat)
  | updateContent (file : String) (changes : ContentUpdate) (sizeBefore sizeAfter : Nat) (ts : Nat)
  | copy (originalFile copyPath copyId : String) (ts : Nat)
  | merge (sourceFiles : List String) (mergedFile : String) (strategy : Option String) (ts : Nat)
  | split (sourceFile : String) (splitFiles : List String) (strategy : String) (ts : Nat)
  | mergedInto (mergedFile : String) (ts : Nat)
  | splitInto (splitFiles : List String) (ts : Nat)
  | splitFromClass (sourceFile className : String) (ts : Nat)
  | splitFromPart (sourceFile : String) (partNumber : Nat) (ts : Nat)
deriving Repr, DecidableEq

/-- One entry of the global organization log: the operation spread
together with the `dryRun` flag and a freshly generated `id`. -/
structure LogEntry where
  op : OpRecord
  dryRun : Bool
  id : String
deriving Repr, DecidableEq

/-- One file record of the organizer's working set. -/
structure FileRec where
  id : String
  fileName : String
  currentPath : String
  originalPath : Option String
  extension : String
  content : String
  size : Nat
  lines : Nat
  operations : List OpRecord
  status : String
  folderPath : Option String := none
  isCopy : Bool := false
  originalFileId : Option String := none
  isMerged : Bool := false
  sourceFileIds : List String := []
  isSplit : Bool := false
  sourceFileId : Option String := none
  created : Option Nat := none
deriving Repr, DecidableEq

/-- The organizer's mutable state: working set, global log, stamp counter. -/
structure OrgState where
  files : List FileRec
  log : List LogEntry
  ctr : Nat
deriving Repr, DecidableEq

/-- `generateId`, with `Date.now() + random` modelled by the drawn counter. -/
def generateId (n : Nat) : String := "file_" ++ toString n

/-- The `findFileByName` predicate on a single record. -/
def matchesName (name : String) (f : FileRec) : Bool :=
  f.fileName = name || f.originalPath = some name || f.currentPath = name

/-- `findFileByName`: first record whose fileName, originalPath or
currentPath equals the given name. -/
def findFileByName (files : List FileRec) (name : String) : Option FileRec :=
  files.find? (matchesName name)

/-- Replace the first record satisfying `p` by its image under `g`
(the in-place mutation of the object returned by `find`). -/
def updateFirst (p : FileRec → Bool) (g : FileRec → FileRec) : List FileRec → List FileRec
  | [] => []
  | f :: fs => if p f then g f :: fs else f :: updateFirst p g fs

/-- `joinPath`: empty folder yields the bare file name; a folder already
ending in `/` is concatenated without an extra separator. -/
def joinPath (folderPath fileName : String) : String :=
  if folderPath.isEmpty then fileName
  else if strEndsWith folderPath "/" then folderPath ++ fileName
  else folderPath ++ "/" ++ fileName

/-- `getFileExtension`: lower-cased text after the last dot, `txt` when
the name has no dot. -/
def getFileExtension (fileName : String) : String :=
  if fileName.data.contains '.' then
    lowerStr (String.mk (fileName.data.reverse.takeWhile (fun c => c ≠ '.')).reverse)
  else "txt"

/-- `fileName.substring(0, fileName.lastIndexOf('.'))`: the characters
before the last dot, or the empty string when there is no dot
(`lastIndexOf` returns −1 and `substring` clamps it to 0). -/
def baseNameBeforeLastDot (s : String) : String :=
  if s.data.contains '.' then
    String.mk (s.data.take
      (s.data.length - ((s.data.reverse.takeWhile (fun c => c ≠ '.')).length + 1)))
  else ""

/-- `fileName.replace(/\.[^.]+$/, '')`: drop a final `.ext` (at least one
non-dot character after the last dot, which must not be final). -/
def stripTrailingExt (s : String) : String :=
  let aft := s.data.reverse.takeWhile (fun c => c ≠ '.')
  if s.data.contains '.' && !aft.isEmpty then
    String.mk (s.data.take (s.data.length - (aft.length + 1)))
  else s

/-- `logOperation`: append the operation to the global log, spread with
the `dryRun` flag and a fresh id. -/
def logOperation (op : OpRecord) (dryRun : Bool) (st : OrgState) : OrgState :=
  { st with log := st.log ++ [{ op := op, dryRun := dryRun, id := generateId st.ctr }],
            ctr := st.ctr + 1 }

/-! ## Organizer operations -/

/-- One `fileRenames` entry: resolve the old name; on success stamp a
rename operation, and unless dry-running set fileName/currentPath to the
new name, append to the record's trail and set status `renamed`; always
log.  Unresolved names are skipped without a log entry. -/
def renameStep (dryRun : Bool) (st : OrgState) (rule : String × String) : OrgState :=
  match findFileByName st.files rule.1 with
  | none => st
  | some file =>
    let op : OpRecord := .rename file.currentPath rule.2 st.ctr
    let st1 : OrgState := { st with ctr := st.ctr + 1 }
    let st2 : OrgState :=
      if dryRun then st1
      else { st1 with files := updateFirst (matchesName rule.1) (fun f =>
        { f with fileName := rule.2, currentPath := rule.2,
                 operations := f.operations ++ [op], status := "renamed" }) st1.files }
    logOperation op dryRun st2

/-- `applyFileRenames`. -/
def applyFileRenames (rules : List (String × String)) (dryRun : Bool) (st : OrgState) : OrgState :=
  rules.foldl (renameStep dryRun) st

/-- One `extensionChanges` entry.  The new file name is derived from the
rule's key (`fileName.substring(0, fileName.lastIndexOf('.'))`), not
from the record's current name. -/
def extensionStep (dryRun : Bool) (st : OrgState) (rule : String × String) : OrgState :=
  match findFileByName st.files rule.1 with
  | none => st
  | some file =>
    let newFileName := baseNameBeforeLastDot rule.1 ++ "." ++ rule.2
    let op : OpRecord := .changeExtension file.currentPath newFileName file.extension rule.2 st.ctr
    let st1 : OrgState := { st with ctr := st.ctr + 1 }
    let st2 : OrgState :=
      if dryRun then st1
      else { st1 with files := updateFirst (matchesName rule.1) (fun f =>
        { f with fileName := newFileName, currentPath := newFileName,
                 extension := rule.2,
                 operations := f.operations ++ [op], status := "extension_changed" }) st1.files }
    logOperation op dryRun st2

/-- `applyExtensionChanges`. -/
def applyExtensionChanges (rules : List (String × String)) (dryRun : Bool) (st : OrgState) : OrgState :=
  rules.foldl (extensionStep dryRun) st

/-- One `folderMappings` entry: join the folder with the record's
current fileName and move the record there. -/
def folderStep (dryRun : Bool) (st : OrgState) (rule : String × String) : OrgState :=
  match findFileByName st.files rule.1 with
  | none => st
  | some file =>
    let newPath := joinPath rule.2 file.fileName
    let op : OpRecord := .move file.currentPath newPath rule.2 st.ctr
    let st1 : OrgState := { st with ctr := st.ctr + 1 }
    let st2 : OrgState :=
      if dryRun then st1
      else { st1 with files := updateFirst (matchesName rule.1) (fun f =>
        { f with currentPath := newPath, folderPath := some rule.2,
                 operations := f.operations ++ [op], status := "moved" }) st1.files }
    logOperation op dryRun st2

/-- `applyFolderMappings`. -/
def applyFolderMappings (rules : List (String × String)) (dryRun : Bool) (st : OrgState) : OrgState :=
  rules.foldl (folderStep dryRun) st

/-- The new content of a `contentUpdates` target: regex-based global
find/replace rules in listed order, then optional import prepending,
then the optional package rewrite. -/
def contentUpdateResult (u : ContentUpdate) (content : String) : String :=
  let c0 := match u.replacements with
    | some reps => reps.foldl (fun c r => jsGlobalReplace r.find r.replace c) content
    | none => content
  let c1 := match u.addImports with
    | some imps => joinSep "\n" (imps.map (fun i => "import " ++ i ++ ";")) ++ "\n\n" ++ c0
    | none => c0
  match u.updatePackage with
  | some p => updatePackageDecl p c1
  | none => c1

/-- One `contentUpdates` entry: recompute the content, stamp an
updateContent operation carrying the rule and both lengths, and unless
dry-running store the content, recompute `size` (Blob = UTF-8 bytes; the
`lines` field is not recomputed by the source) and set status
`content_updated`. -/
def contentStep (dryRun : Bool) (st : OrgState) (rule : String × ContentUpdate) : OrgState :=
  match findFileByName st.files rule.1 with
  | none => st
  | some file =>
    let newContent := contentUpdateResult rule.2 file.content
    let op : OpRecord :=
      .updateContent rule.1 rule.2 file.content.length newContent.length st.ctr
    let st1 : OrgState := { st with ctr := st.ctr + 1 }
    let st2 : OrgState :=
      if dryRun then st1
      else { st1 with files := updateFirst (matchesName rule.1) (fun f =>
        { f with content := newContent, size := newContent.utf8ByteSize,
                 operations := f.operations ++ [op], status := "content_updated" }) st1.files }
    logOperation op dryRun st2

/-- `applyContentUpdates`. -/
def applyContentUpdates (rules : List (String × ContentUpdate)) (dryRun : Bool) (st : OrgState) : OrgState :=
  rules.foldl (contentStep dryRun) st

/-- `applyModificationsToCopy`: optional package rewrite, optional
class-name rewrite (the old class name is the copy's file name without
its extension), optional import prepending — mutating only the copy. -/
def applyModificationsToCopy (f : FileRec) (m : CopyMods) : FileRec :=
  let f1 := match m.packageName with
    | some p => { f with content := updatePackageDecl p f.content }
    | none => f
  let f2 := match m.className with
    | some cn =>
      let oldClassName := stripTrailingExt f1.fileName
      { f1 with content := String.mk (replaceClassTokens oldClassName.data cn.data f1.content.data) }
    | none => f1
  match m.imports with
  | some imps =>
    { f2 with content := joinSep "\n" (imps.map (fun i => "import " ++ i ++ ";")) ++ "\n\n" ++ f2.content }
  | none => f2

/-- One destination of a `copyToMultipleLocations` entry: build the copy
id from the source id and the destination index, stamp a copy operation,
and unless dry-running append the cloned record (spread of the original
with fresh identity fields and optional modifications; its `size` is not
recomputed by the source); always log. -/
def copyLocStep (dryRun : Bool) (key : String) (orig : FileRec)
    (st : OrgState) (loc : Nat × CopyLocation) : OrgState :=
  let copyId := orig.id ++ "_copy_" ++ toString loc.1
  let nm := match loc.2.name with
    | some n => if n.isEmpty then key else n
    | none => key
  let copyPath := joinPath loc.2.folder nm
  let op : OpRecord := .copy key copyPath copyId st.ctr
  let st1 : OrgState := { st with ctr := st.ctr + 1 }
  let st2 : OrgState :=
    if dryRun then st1
    else
      let fileCopy : FileRec :=
        { orig with id := copyId, fileName := nm, currentPath := copyPath,
                    folderPath := some loc.2.folder, operations := [op],
                    status := "copied", isCopy := true, originalFileId := some orig.id }
      let fileCopy2 := match loc.2.modifications with
        | some m => applyModificationsToCopy fileCopy m
        | none => fileCopy
      { st1 with files := st1.files ++ [fileCopy2] }
  logOperation op dryRun st2

/-- One `copyToMultipleLocations` entry: resolve the source once, then
process each destination in order. -/
def copyStep (dryRun : Bool) (st : OrgState) (rule : String × List CopyLocation) : OrgState :=
  match findFileByName st.files rule.1 with
  | none => st
  | some orig => rule.2.enum.foldl (copyLocStep dryRun rule.1 orig) st

/-- `applyCopyToMultipleLocations`. -/
def applyCopyToMultipleLocations (rules : List (String × List CopyLocation))
    (dryRun : Bool) (st : OrgState) : OrgState :=
  rules.foldl (copyStep dryRun) st

/-- `mergeFileContents`: the four merge strategies of the source. -/
def mergeFileContents (sources : List FileRec) (strategy : String) : String :=
  if strategy = "concatenate" then
    joinSep "\n\n" (sources.map (fun f => f.content))
  else if strategy = "package_merge" then
    let pkg := match sources with
      | [] => ""
      | f :: _ => ((kwSemiFirst "package".data f.content.data).map String.mk).getD ""
    let allImports := dedupFirst
      ((sources.map (fun f => (kwSemiMatches "import".data f.content.data).map String.mk)).flatten)
    let bodies := sources.map (fun f =>
      jsTrim (String.mk (stripKwSemiAll "import".data (stripKwSemiFirst "package".data f.content.data))))
    joinSep "\n"
      (([pkg, "", joinSep "\n" allImports, "", joinSep "\n\n" bodies]).filter (fun s => !s.isEmpty))
  else if strategy = "section_merge" then
    joinSep "\n\n" (sources.map (fun f =>
      "// === " ++ f.fileName ++ " ===\n" ++ f.content ++ "\n// === End " ++ f.fileName ++ " ==="))
  else joinSep "\n" (sources.map (fun f => f.content))

/-- Mark each resolved merge source: status `merged_source` plus a
`merged_into` entry on the record's own trail (one timestamp draw each). -/
def markMergedSources (mergedName : String) (names : List String) (st : OrgState) : OrgState :=
  names.foldl (fun s n =>
    { s with ctr := s.ctr + 1,
             files := updateFirst (matchesName n) (fun f =>
               { f with status := "merged_source",
                        operations := f.operations ++ [.mergedInto mergedName s.ctr] }) s.files }) st

/-- One `mergeFiles` entry: resolve the sources (missing ones silently
dropped); skip entirely when none resolve; otherwise compute the merged
content with the section's strategy (default `concatenate`), stamp a
merge operation, and unless dry-running append the freshly built merged
record and mark the sources; always log. -/
def mergeStep (dryRun : Bool) (strategy : Option String)
    (st : OrgState) (rule : String × List String) : OrgState :=
  let sources := rule.2.filterMap (findFileByName st.files)
  if sources.isEmpty then st
  else
    let strat := match strategy with
      | some s => if s.isEmpty then "concatenate" else s
      | none => "concatenate"
    let mergedContent := mergeFileContents sources strat
    let op : OpRecord := .merge rule.2 rule.1 strategy st.ctr
    let st1 : OrgState := { st with ctr := st.ctr + 1 }
    let st2 : OrgState :=
      if dryRun then st1
      else
        let mergedFile : FileRec :=
          { id := generateId st1.ctr, fileName := rule.1, currentPath := rule.1,
            originalPath := none, extension := getFileExtension rule.1,
            content := mergedContent, size := mergedContent.utf8ByteSize,
            lines := (splitLines mergedContent).length,
            operations := [op], status := "merged",
            isMerged := true, sourceFileIds := sources.map (fun f => f.id),
            created := some (st1.ctr + 1) }
        let st1b : OrgState := { st1 with ctr := st1.ctr + 2,
                                          files := st1.files ++ [mergedFile] }
        markMergedSources rule.1
          (rule.2.filter (fun n => (findFileByName st.files n).isSome)) st1b
    logOperation op dryRun st2

/-- `applyMergeFiles` over the section's file entries. -/
def applyMergeFiles (sec : MergeSection) (dryRun : Bool) (st : OrgState) : OrgState :=
  sec.entries.foldl (mergeStep dryRun sec.mergeStrategy) st

/-- Build the `by_class` split records: one per class-declaration match
of the source content, each carrying the package declaration, all
imports and the brace-balanced class region (empty when the braces
never balance, since `classEnd` then stays at `classStart`). -/
def buildClassSplits (f : FileRec) (pkg : String) (imports : List String) :
    List (Nat × String) → Nat → List FileRec × Nat
  | [], c => ([], c)
  | (classStart, className) :: rest, c =>
    let classEnd := (braceScanGo (f.content.data.drop classStart) 0 classStart).getD classStart
    let classContent := String.mk ((f.content.data.drop classStart).take (classEnd - classStart))
    let fullContent := joinSep "\n"
      (([pkg, "", joinSep "\n" imports, "", classContent]).filter (fun s => !s.isEmpty))
    let r0 : FileRec :=
      { id := generateId c,
        fileName := className ++ "." ++ f.extension,
        currentPath := className ++ "." ++ f.extension,
        originalPath := none, extension := f.extension,
        content := fullContent, size := fullContent.utf8ByteSize,
        lines := (splitLines fullContent).length,
        operations := [.splitFromClass f.fileName className (c + 1)],
        status := "split_result", isSplit := true, sourceFileId := some f.id,
        created := some (c + 2) }
    let pr := buildClassSplits f pkg imports rest (c + 3)
    (r0 :: pr.1, pr.2)

/-- Build the `by_lines` split records: one per chunk, numbered from 1,
named `base_partN.ext`. -/
def buildLineSplits (f : FileRec) :
    List (List String) → Nat → Nat → List FileRec × Nat
  | [], _, c => ([], c)
  | chunk :: rest, partNumber, c =>
    let chunkContent := joinSep "\n" chunk
    let nm := stripTrailingExt f.fileName ++ "_part" ++ toString partNumber ++ "." ++ f.extension
    let r0 : FileRec :=
      { id := generateId c, fileName := nm, currentPath := nm,
        originalPath := none, extension := f.extension,
        content := chunkContent, size := chunkContent.utf8ByteSize,
        lines := chunk.length,
        operations := [.splitFromPart f.fileName partNumber (c + 1)],
        status := "split_result", isSplit := true, sourceFileId := some f.id,
        created := some (c + 2) }
    let pr := buildLineSplits f rest (partNumber + 1) (c + 3)
    (r0 :: pr.1, pr.2)

/-- `splitFileContent`: `by_class` scans class declarations and extracts
brace-balanced regions; `by_function` computes its matches but emits
nothing (unimplemented in the source); `by_lines` chunks by
`linesPerFile` (default 100, also used when 0 is configured, since 0 is
falsy); any other strategy emits nothing. -/
def splitFileContent (f : FileRec) (sc : SplitConfig) (c : Nat) : List FileRec × Nat :=
  if sc.strategy = "by_class" then
    let cm := classDeclMatches f.content.data 0
    let pkg := ((kwSemiFirst "package".data f.content.data).map String.mk).getD ""
    let imports := (kwSemiMatches "import".data f.content.data).map String.mk
    buildClassSplits f pkg imports cm c
  else if sc.strategy = "by_function" then ([], c)
  else if sc.strategy = "by_lines" then
    let linesPerFile := match sc.linesPerFile with
      | some n => if n = 0 then 100 else n
      | none => 100
    buildLineSplits f (chunkList linesPerFile (splitLines f.content)) 1 c
  else ([], c)

/-- One `splitFiles` entry: compute the split records (this happens
before the dry-run check, so the stamp draws occur either way), stamp a
split operation listing the produced names, and unless dry-running
append the new records and mark the source `split_source` with a
`split_into` trail entry; always log. -/
def splitStep (dryRun : Bool) (st : OrgState) (rule : String × SplitConfig) : OrgState :=
  match findFileByName st.files rule.1 with
  | none => st
  | some sourceFile =>
    let pr := splitFileContent sourceFile rule.2 st.ctr
    let stA : OrgState := { st with ctr := pr.2 }
    let op : OpRecord := .split rule.1 (pr.1.map (fun f => f.fileName)) rule.2.strategy stA.ctr
    let stB : OrgState := { stA with ctr := stA.ctr + 1 }
    let stC : OrgState :=
      if dryRun then stB
      else
        let stP : OrgState := { stB with files := stB.files ++ pr.1 }
        { stP with ctr := stP.ctr + 1,
                   files := updateFirst (matchesName rule.1) (fun f =>
                     { f with status := "split_source",
                              operations := f.operations ++
                                [.splitInto (pr.1.map (fun g => g.fileName)) stP.ctr] }) stP.files }
    logOperation op dryRun stC

/-- `applySplitFiles`. -/
def applySplitFiles (rules : List (String × SplitConfig)) (dryRun : Bool) (st : OrgState) : OrgState :=
  rules.foldl (splitStep dryRun) st

/-- Apply one optional section. -/
def applyOptional {α : Type} (g : α → OrgState → OrgState) : Option α → OrgState → OrgState
  | none, st => st
  | some a, st => g a st

/-- The fixed operation order of `organizeFiles`. -/
def runOperations (config : OrgConfig) (dryRun : Bool) (st : OrgState) : OrgState :=
  let s1 := applyOptional (fun r => applyFileRenames r dryRun) config.fileRenames st
  let s2 := applyOptional (fun r => applyExtensionChanges r dryRun) config.extensionChanges s1
  let s3 := applyOptional (fun r => applyFolderMappings r dryRun) config.folderMappings s2
  let s4 := applyOptional (fun r => applyContentUpdates r dryRun) config.contentUpdates s3
  let s5 := applyOptional (fun r => applyCopyToMultipleLocations r dryRun) config.copyToMultipleLocations s4
  let s6 := applyOptional (fun r => applyMergeFiles r dryRun) config.mergeFiles s5
  applyOptional (fun r => applySplitFiles r dryRun) config.splitFiles s6

/-- The post-run validation report (`validateOrganizationResults`):
errors and warnings plus the stats block, computed over all records
(the duplicate check does not exclude `*_source` records). -/
structure OrgValidation where
  errors : List String
  warnings : List String
  totalFiles : Nat
  renamedFiles : Nat
  movedFiles : Nat
  copiedFiles : Nat
  mergedFiles : Nat
  splitResultFiles : Nat
deriving Repr, DecidableEq

/-- `validateOrganizationResults`: duplicate `currentPath` values (a
name whose first index differs from its own position), empty/blank
paths, and zero-size records; pure report, the working set is untouched. -/
def validateOrganizationResults (files : List FileRec) : OrgValidation :=
  let fileNames := files.map (fun f => f.currentPath)
  let duplicates := (fileNames.enum.filter (fun p => fileNames.indexOf p.2 ≠ p.1)).map (fun p => p.2)
  let dupErrs := if duplicates.isEmpty then []
    else ["File duplicati: " ++ joinSep ", " (dedupFirst duplicates)]
  let invalidPaths := files.filter (fun f => (jsTrim f.currentPath).isEmpty)
  let pathErrs := if invalidPaths.isEmpty then []
    else [toString invalidPaths.length ++ " file con path non validi"]
  let emptySizeFiles := files.filter (fun f => f.size = 0)
  let wrns := if emptySizeFiles.isEmpty then []
    else [toString emptySizeFiles.length ++ " file vuoti"]
  { errors := dupErrs ++ pathErrs, warnings := wrns,
    totalFiles := files.length,
    renamedFiles := (files.filter (fun f => f.status = "renamed")).length,
    movedFiles := (files.filter (fun f => f.status = "moved")).length,
    copiedFiles := (files.filter (fun f => f.isCopy)).length,
    mergedFiles := (files.filter (fun f => f.isMerged)).length,
    splitResultFiles := (files.filter (fun f => f.isSplit)).length }

/-- `organizeFiles`: reset the log, apply the sections in fixed order,
then compute the post-run validation report (which never mutates the
working set and never throws). -/
def organizeFiles (files : List FileRec) (config : OrgConfig) (dryRun : Bool) (c : Nat) :
    OrgState × OrgValidation :=
  let st := runOperations config dryRun { files := files, log := [], ctr := c }
  (st, validateOrganizationResults st.files)

/-- One file as handed to `loadFiles` (fields of the extractor records
that `loadFiles` reads or spreads). -/
structure InputFile where
  id : Option String := none
  fileName : String
  extension : String := ""
  content : String := ""
  size : Nat := 0
  lines : Nat := 0
deriving Repr, DecidableEq

/-- `loadFiles`: spread each input with a (possibly fresh) id,
`originalPath`/`currentPath` set to the file name, an empty operations
trail and status `pending`. -/
def loadFiles (inputs : List InputFile) (c : Nat) : List FileRec × Nat :=
  match inputs with
  | [] => ([], c)
  | i :: rest =>
    let p : String × Nat := match i.id with
      | some s => if s.isEmpty then (generateId c, c + 1) else (s, c)
      | none => (generateId c, c + 1)
    let f : FileRec :=
      { id := p.1, fileName := i.fileName, currentPath := i.fileName,
        originalPath := some i.fileName, extension := i.extension,
        content := i.content, size := i.size, lines := i.lines,
        operations := [], status := "pending" }
    let pr := loadFiles rest p.2
    (f :: pr.1, pr.2)

/-! ## Configuration validation (validateAndNormalizeConfig / loadConfig) -/

/-- The validator's verdict (`data` is the unchanged configuration). -/
structure ConfigValidation where
  isValid : Bool
  errors : List String
  warnings : List String
deriving Repr, DecidableEq

/-- An unsafe folder path: contains `..` or starts with `/`. -/
def unsafeFolderPath (p : String) : Bool :=
  hasSubstr p ".." || strStartsWith p "/"

/-- Errors from the `fileRenames` section: empty old or new name. -/
def renameRuleErrors (l : List (String × String)) : List String :=
  l.filterMap (fun r =>
    if r.1.isEmpty || r.2.isEmpty then
      some ("Nome file vuoto in fileRenames: " ++ r.1 ++ " → " ++ r.2)
    else none)

/-- Errors from the `folderMappings` section: unsafe folder paths. -/
def folderMappingErrors (l : List (String × String)) : List String :=
  l.filterMap (fun r =>
    if unsafeFolderPath r.2 then
      some ("Path non sicuro in folderMappings: " ++ r.2)
    else none)

/-- Errors from the `copyToMultipleLocations` section: empty destination lists. -/
def copyLocationErrors (l : List (String × List CopyLocation)) : List String :=
  l.filterMap (fun r =>
    if r.2.isEmpty then some ("Almeno una destinazione richiesta per " ++ r.1) else none)

/-- Warnings for top-level keys that are neither recognized sections nor
the tolerated metadata keys. -/
def unknownSectionWarnings (otherKeys : List String) : List String :=
  let unknown := otherKeys.filter (fun k =>
    !(["projectName", "description", "version"].contains k))
  if unknown.isEmpty then [] else ["Sezioni sconosciute: " ++ joinSep ", " unknown]

/-- `validateAndNormalizeConfig` on a typed configuration (the
shape errors for non-object sections cannot arise in the typed model). -/
def validateAndNormalizeConfig (config : OrgConfig) : ConfigValidation :=
  let errors :=
    (match config.fileRenames with | some l => renameRuleErrors l | none => []) ++
    (match config.folderMappings with | some l => folderMappingErrors l | none => []) ++
    (match config.copyToMultipleLocations with | some l => copyLocationErrors l | none => [])
  { isValid := errors.isEmpty, errors := errors,
    warnings := unknownSectionWarnings config.otherKeys }

/-- `loadConfig`: validate, throw (`Except.error`) when invalid — so an
unsafe configuration can never reach `organizeFiles` through the normal
flow — and keep the configuration as loaded otherwise. -/
def loadConfig (config : OrgConfig) : Except String OrgConfig :=
  let v := validateAndNormalizeConfig config
  if v.isValid then .ok config
  else .error ("Configurazione non valida: " ++ joinSep ", " v.errors)

/-! ## Dry-run machinery

The global log entries carry two run-dependent stamps: the entry `id`
(from `generateId`) and the operation timestamp.  `LogEntry.core`
projects an entry onto its stamp-free content: the operation with its
timestamp zeroed, together with the `dryRun` flag. -/

/-- Zero the timestamp of an operation record. -/
def OpRecord.zeroTs : OpRecord → OpRecord
  | .rename a b _ => .rename a b 0
  | .changeExtension a b c d _ => .changeExtension a b c d 0
  | .move a b c _ => .move a b c 0
  | .updateContent a b c d _ => .updateContent a b c d 0
  | .copy a b c _ => .copy a b c 0
  | .merge a b c _ => .merge a b c 0
  | .split a b c _ => .split a b c 0
  | .mergedInto a _ => .mergedInto a 0
  | .splitInto a _ => .splitInto a 0
  | .splitFromClass a b _ => .splitFromClass a b 0
  | .splitFromPart a b _ => .splitFromPart a b 0

/-- Stamp-free content of a log entry. -/
def LogEntry.core (e : LogEntry) : OpRecord × Bool := (e.op.zeroTs, e.dryRun)

/-- Stamp-free content of a whole log. -/
def coreLog (l : List LogEntry) : List (OpRecord × Bool) := l.map LogEntry.core

/-- A dry-run step is characterized by a stamp-free entry list computed
from the (unchanged) working set: the files are untouched, the log grows
by exactly those entries, and every new entry is flagged `dryRun`. -/
def DryStepOK {ρ : Type} (step : OrgState → ρ → OrgState)
    (coreStep : List FileRec → ρ → List (OpRecord × Bool)) : Prop :=
  ∀ st r, (step st r).files = st.files ∧
    coreLog (step st r).log = coreLog st.log ++ coreStep st.files r ∧
    (∀ e ∈ (step st r).log, e ∈ st.log ∨ e.dryRun = true)

theorem foldl_dry {ρ : Type} {step : OrgState → ρ → OrgState}
    {coreStep : List FileRec → ρ → List (OpRecord × Bool)}
    (h : DryStepOK step coreStep) (rules : List ρ) :
    ∀ st : OrgState,
      (rules.foldl step st).files = st.files ∧
      coreLog (rules.foldl step st).log
        = coreLog st.log ++ (rules.map (coreStep st.files)).flatten ∧
      (∀ e ∈ (rules.foldl step st).log, e ∈ st.log ∨ e.dryRun = true) := by
  induction rules with
  | nil => intro st; exact ⟨rfl, by simp [List.foldl], fun e he => Or.inl he⟩
  | cons r rs ih =>
    intro st
    obtain ⟨hf, hl, hd⟩ := h st r
    obtain ⟨ihf, ihl, ihd⟩ := ih (step st r)
    refine ⟨by simp [List.foldl, ihf, hf], ?_, ?_⟩
    · simp only [List.foldl, ihl, hl, hf, List.map_cons, List.flatten_cons, List.append_assoc]
    · intro e he
      rcases ihd e (by simpa [List.foldl] using he) with h1 | h2
      · rcases hd e h1 with h3 | h4
        · exact Or.inl h3
        · exact Or.inr h4
      · exact Or.inr h2

/-- Stamp-free dry-run log contribution of one rename rule. -/
def renameCore (files : List FileRec) (rule : String × String) : List (OpRecord × Bool) :=
  match findFileByName files rule.1 with
  | none => []
  | some file => [(.rename file.currentPath rule.2 0, true)]

theorem renameStep_dry : DryStepOK (renameStep true) renameCore := by
  intro st r
  unfold renameStep renameCore
  cases findFileByName st.files r.1 with
  | none => exact ⟨rfl, by simp, fun e he => Or.inl he⟩
  | some file =>
    refine ⟨rfl, ?_, ?_⟩
    · simp [logOperation, coreLog, LogEntry.core, OpRecord.zeroTs]
    · intro e he
      simp only [logOperation, if_pos, List.mem_append, List.mem_singleton] at he
      rcases he with h1 | h2
      · exact Or.inl h1
      · subst h2; exact Or.inr rfl

/-- Stamp-free dry-run log contribution of one extensionChanges rule. -/
def extensionCore (files : List FileRec) (rule : String × String) : List (OpRecord × Bool) :=
  match findFileByName files rule.1 with
  | none => []
  | some file =>
    [(.changeExtension file.currentPath (baseNameBeforeLastDot rule.1 ++ "." ++ rule.2)
        file.extension rule.2 0, true)]

theorem extensionStep_dry : DryStepOK (extensionStep true) extensionCore := by
  intro st r
  unfold extensionStep extensionCore
  cases findFileByName st.files r.1 with
  | none => exact ⟨rfl, by simp, fun e he => Or.inl he⟩
  | some file =>
    refine ⟨rfl, ?_, ?_⟩
    · simp [logOperation, coreLog, LogEntry.core, OpRecord.zeroTs]
    · intro e he
      simp only [logOperation, List.mem_append, List.mem_singleton] at he
      rcases he with h1 | h2
      · exact Or.inl h1
      · subst h2; exact Or.inr rfl

/-- Stamp-free dry-run log contribution of one folderMappings rule. -/
def folderCore (files : List FileRec) (rule : String × String) : List (OpRecord × Bool) :=
  match findFileByName files rule.1 with
  | none => []
  | some file =>
    [(.move file.currentPath (joinPath rule.2 file.fileName) rule.2 0, true)]

theorem folderStep_dry : DryStepOK (folderStep true) folderCore := by
  intro st r
  unfold folderStep folderCore
  cases findFileByName st.files r.1 with
  | none => exact ⟨rfl, by simp, fun e he => Or.inl he⟩
  | some file =>
    refine ⟨rfl, ?_, ?_⟩
    · simp [logOperation, coreLog, LogEntry.core, OpRecord.zeroTs]
    · intro e he
      simp only [logOperation, List.mem_append, List.mem_singleton] at he
      rcases he with h1 | h2
      · exact Or.inl h1
      · subst h2; exact Or.inr rfl

/-- Stamp-free dry-run log contribution of one contentUpdates rule. -/
def contentCore (files : List FileRec) (rule : String × ContentUpdate) : List (OpRecord × Bool) :=
  match findFileByName files rule.1 with
  | none => []
  | some file =>
    [(.updateContent rule.1 rule.2 file.content.length
        (contentUpdateResult rule.2 file.content).length 0, true)]

theorem contentStep_dry : DryStepOK (contentStep true) contentCore := by
  intro st r
  unfold contentStep contentCore
  cases findFileByName st.files r.1 with
  | none => exact ⟨rfl, by simp, fun e he => Or.inl he⟩
  | some file =>
    refine ⟨rfl, ?_, ?_⟩
    · simp [logOperation, coreLog, LogEntry.core, OpRecord.zeroTs]
    · intro e he
      simp only [logOperation, List.mem_append, List.mem_singleton] at he
      rcases he with h1 | h2
      · exact Or.inl h1
      · subst h2; exact Or.inr rfl

/-- Stamp-free dry-run log contribution of one copy destination. -/
def copyLocCore (key : String) (orig : FileRec) (files : List FileRec)
    (loc : Nat × CopyLocation) : List (OpRecord × Bool) :=
  let nm := match loc.2.name with
    | some n => if n.isEmpty then key else n
    | none => key
  [(.copy key (joinPath loc.2.folder nm) (orig.id ++ "_copy_" ++ toString loc.1) 0, true)]

theorem copyLocStep_dry (key : String) (orig : FileRec) :
    DryStepOK (copyLocStep true key orig) (copyLocCore key orig) := by
  intro st r
  unfold copyLocStep copyLocCore
  refine ⟨rfl, ?_, ?_⟩
  · simp [logOperation, coreLog, LogEntry.core, OpRecord.zeroTs]
  · intro e he
    simp only [logOperation, List.mem_append, List.mem_singleton] at he
    rcases he with h1 | h2
    · exact Or.inl h1
    · subst h2; exact Or.inr rfl

/-- Stamp-free dry-run log contribution of one copyToMultipleLocations
rule: one entry per destination when the source resolves. -/
def copyCore (files : List FileRec) (rule : String × List CopyLocation) : List (OpRecord × Bool) :=
  match findFileByName files rule.1 with
  | none => []
  | some orig => (rule.2.enum.map (copyLocCore rule.1 orig files)).flatten

theorem copyStep_dry : DryStepOK (copyStep true) copyCore := by
  intro st r
  unfold copyStep copyCore
  cases findFileByName st.files r.1 with
  | none => exact ⟨rfl, by simp, fun e he => Or.inl he⟩
  | some orig => exact foldl_dry (copyLocStep_dry r.1 orig) r.2.enum st

/-- Stamp-free dry-run log contribution of one mergeFiles entry. -/
def mergeCore (strategy : Option String) (files : List FileRec)
    (rule : String × List String) : List (OpRecord × Bool) :=
  if (rule.2.filterMap (findFileByName files)).isEmpty then []
  else [(.merge rule.2 rule.1 strategy 0, true)]

theorem mergeStep_dry (strategy : Option String) :
    DryStepOK (mergeStep true strategy) (mergeCore strategy) := by
  intro st r
  unfold mergeStep mergeCore
  by_cases hs : (r.2.filterMap (findFileByName st.files)).isEmpty = true
  · simp only [if_pos hs]
    exact ⟨trivial, by simp, fun e he => Or.inl he⟩
  · simp only [if_neg hs]
    refine ⟨rfl, ?_, ?_⟩
    · simp [logOperation, coreLog, LogEntry.core, OpRecord.zeroTs]
    · intro e he
      simp only [logOperation, List.mem_append, List.mem_singleton] at he
      rcases he with h1 | h2
      · exact Or.inl h1
      · subst h2; exact Or.inr rfl

theorem buildClassSplits_map_fileName (f : FileRec) (pkg : String) (imports : List String)
    (l : List (Nat × String)) : ∀ c : Nat,
    ((buildClassSplits f pkg imports l c).1).map (fun g => g.fileName)
      = l.map (fun p => p.2 ++ "." ++ f.extension) := by
  induction l with
  | nil => intro c; simp [buildClassSplits]
  | cons p rest ih => intro c; simp [buildClassSplits, ih]

theorem buildLineSplits_map_fileName (f : FileRec) (chunks : List (List String)) :
    ∀ n c c' : Nat,
    ((buildLineSplits f chunks n c).1).map (fun g => g.fileName)
      = ((buildLineSplits f chunks n c').1).map (fun g => g.fileName) := by
  induction chunks with
  | nil => intro n c c'; simp [buildLineSplits]
  | cons ch rest ih => intro n c c'; simp [buildLineSplits, ih (n + 1) (c + 3) (c' + 3)]

/-- The file names produced by a split do not depend on the stamp counter. -/
theorem splitFileContent_map_fileName (f : FileRec) (sc : SplitConfig) (c c' : Nat) :
    ((splitFileContent f sc c).1).map (fun g => g.fileName)
      = ((splitFileContent f sc c').1).map (fun g => g.fileName) := by
  unfold splitFileContent
  split
  · rw [buildClassSplits_map_fileName, buildClassSplits_map_fileName]
  · split
    · rfl
    · split
      · exact buildLineSplits_map_fileName f _ 1 c c'
      · rfl

/-- Stamp-free dry-run log contribution of one splitFiles rule. -/
def splitCore (files : List FileRec) (rule : String × SplitConfig) : List (OpRecord × Bool) :=
  match findFileByName files rule.1 with
  | none => []
  | some f =>
    [(.split rule.1 (((splitFileContent f rule.2 0).1).map (fun g => g.fileName))
        rule.2.strategy 0, true)]

theorem splitStep_dry : DryStepOK (splitStep true) splitCore := by
  intro st r
  unfold splitStep splitCore
  cases findFileByName st.files r.1 with
  | none => exact ⟨rfl, by simp, fun e he => Or.inl he⟩
  | some f =>
    refine ⟨rfl, ?_, ?_⟩
    · simp only [logOperation, coreLog, List.map_append, List.map_cons, List.map_nil]
      rw [splitFileContent_map_fileName f r.2 st.ctr 0]
      simp [LogEntry.core, OpRecord.zeroTs]
    · intro e he
      simp only [logOperation, List.mem_append, List.mem_singleton] at he
      rcases he with h1 | h2
      · exact Or.inl h1
      · subst h2; exact Or.inr rfl

/-- Dry-run log contribution of one optional section. -/
def optCore {α : Type} (coreApp : List FileRec → α → List (OpRecord × Bool))
    (files : List FileRec) : Option α → List (OpRecord × Bool)
  | none => []
  | some a => coreApp files a

/-- A state transformer that is a pure logger in dry-run mode. -/
def DryTransOK (t : OrgState → OrgState) (core : List FileRec → List (OpRecord × Bool)) : Prop :=
  ∀ st, (t st).files = st.files ∧
    coreLog (t st).log = coreLog st.log ++ core st.files ∧
    (∀ e ∈ (t st).log, e ∈ st.log ∨ e.dryRun = true)

theorem DryTransOK.comp {t1 t2 : OrgState → OrgState} {core1 core2}
    (h1 : DryTransOK t1 core1) (h2 : DryTransOK t2 core2) :
    DryTransOK (fun st => t2 (t1 st)) (fun files => (core1 files ++ core2 files)) := by
  intro st
  obtain ⟨f1, l1, d1⟩ := h1 st
  obtain ⟨f2, l2, d2⟩ := h2 (t1 st)
  refine ⟨by rw [f2, f1], by rw [l2, l1, f1, List.append_assoc], ?_⟩
  intro e he
  rcases d2 e he with h | h
  · rcases d1 e h with h' | h'
    · exact Or.inl h'
    · exact Or.inr h'
  · exact Or.inr h

theorem applyOptional_dryTrans {α : Type} {app : OrgState → α → OrgState} {coreApp}
    (h : DryStepOK app coreApp) (o : Option α) :
    DryTransOK (fun st => applyOptional (fun a s => app s a) o st)
      (fun files => optCore coreApp files o) := by
  cases o with
  | none => exact fun st => ⟨rfl, by simp [applyOptional, optCore], fun e he => Or.inl he⟩
  | some a =>
    intro st
    obtain ⟨hf, hl, hd⟩ := h st a
    exact ⟨hf, by simpa [applyOptional, optCore] using hl, fun e he => hd e he⟩

/-- The per-section dry-run contributions, with the foldl over the rules flattened. -/
def sectionFlat {ρ : Type} (coreStep : List FileRec → ρ → List (OpRecord × Bool))
    (files : List FileRec) (l : List ρ) : List (OpRecord × Bool) :=
  (l.map (coreStep files)).flatten

theorem foldl_dryStep {ρ : Type} {step : OrgState → ρ → OrgState} {coreStep}
    (h : DryStepOK step coreStep) :
    DryStepOK (fun st (l : List ρ) => l.foldl step st) (sectionFlat coreStep) :=
  fun st l => foldl_dry h l st

/-- The stamp-free log of a full dry run, as a function of the
configuration and the (unchanged) working set. -/
def dryCoreLog (config : OrgConfig) (files : List FileRec) : List (OpRecord × Bool) :=
  ((((((optCore (sectionFlat renameCore) files config.fileRenames
      ++ optCore (sectionFlat extensionCore) files config.extensionChanges)
      ++ optCore (sectionFlat folderCore) files config.folderMappings)
      ++ optCore (sectionFlat contentCore) files config.contentUpdates)
      ++ optCore (sectionFlat copyCore) files config.copyToMultipleLocations)
      ++ optCore (fun fs sec =>
            (sec.entries.map (mergeCore sec.mergeStrategy fs)).flatten) files config.mergeFiles)
      ++ optCore (sectionFlat splitCore) files config.splitFiles)

/-- A dry run of the whole pipeline keeps the working set and logs
exactly the stamp-free contributions of the sections in fixed order. -/
theorem runOperations_dry (config : OrgConfig) :
    DryTransOK (runOperations config true) (dryCoreLog config) := by
  have h1 : DryStepOK (fun st (sec : MergeSection) => applyMergeFiles sec true st)
      (fun fs sec => (sec.entries.map (mergeCore sec.mergeStrategy fs)).flatten) :=
    fun st sec => foldl_dry (mergeStep_dry sec.mergeStrategy) sec.entries st
  exact
    ((((((applyOptional_dryTrans (foldl_dryStep renameStep_dry) config.fileRenames).comp
      (applyOptional_dryTrans (foldl_dryStep extensionStep_dry) config.extensionChanges)).comp
      (applyOptional_dryTrans (foldl_dryStep folderStep_dry) config.folderMappings)).comp
      (applyOptional_dryTrans (foldl_dryStep contentStep_dry) config.contentUpdates)).comp
      (applyOptional_dryTrans (foldl_dryStep copyStep_dry) config.copyToMultipleLocations)).comp
      (applyOptional_dryTrans h1 config.mergeFiles)).comp
      (applyOptional_dryTrans (foldl_dryStep splitStep_dry) config.splitFiles)

/-- Numeric contribution of one optional section. -/
def optNum {α : Type} (g : α → Nat) : Option α → Nat
  | none => 0
  | some a => g a

/-- The number of applied rule instances of a configuration against a
fixed working set: one per resolvable rename / extension change /
folder mapping / content update / split rule, one per destination of a
resolvable copy rule, and one per merge entry with at least one
resolvable source. -/
def applicableCount (config : OrgConfig) (files : List FileRec) : Nat :=
  optNum (fun l => (l.filter (fun r : String × String =>
    (findFileByName files r.1).isSome)).length) config.fileRenames
  + optNum (fun l => (l.filter (fun r : String × String =>
      (findFileByName files r.1).isSome)).length) config.extensionChanges
  + optNum (fun l => (l.filter (fun r : String × String =>
      (findFileByName files r.1).isSome)).length) config.folderMappings
  + optNum (fun l => (l.filter (fun r : String × ContentUpdate =>
      (findFileByName files r.1).isSome)).length) config.contentUpdates
  + optNum (fun l => (l.map (fun r : String × List CopyLocation =>
      if (findFileByName files r.1).isSome then r.2.length else 0)).sum)
      config.copyToMultipleLocations
  + optNum (fun sec => (sec.entries.filter (fun r =>
      !(r.2.filterMap (findFileByName files)).isEmpty)).length) config.mergeFiles
  + optNum (fun l => (l.filter (fun r : String × SplitConfig =>
      (findFileByName files r.1).isSome)).length) config.splitFiles

theorem sectionFlat_single_length {ρ : Type}
    (core : List FileRec → ρ → List (OpRecord × Bool)) (key : ρ → String)
    (files : List FileRec)
    (hcore : ∀ r, (core files r).length
      = if (findFileByName files (key r)).isSome then 1 else 0) (l : List ρ) :
    (sectionFlat core files l).length
      = (l.filter (fun r => (findFileByName files (key r)).isSome)).length := by
  induction l with
  | nil => rfl
  | cons r rs ih =>
    simp only [sectionFlat, List.map_cons, List.flatten_cons, List.length_append,
      List.filter_cons] at ih ⊢
    rw [hcore r]
    by_cases h : (findFileByName files (key r)).isSome
    · simp [h, ih]
      omega
    · simp only [h, if_false, Bool.false_eq_true, if_neg, ih]
      simp

theorem dryCoreLog_length (config : OrgConfig) (files : List FileRec) :
    (dryCoreLog config files).length = applicableCount config files := by
  have hren := sectionFlat_single_length renameCore Prod.fst files
    (fun r => by unfold renameCore; cases findFileByName files r.1 <;> simp)
  have hext := sectionFlat_single_length extensionCore Prod.fst files
    (fun r => by unfold extensionCore; cases findFileByName files r.1 <;> simp)
  have hfold := sectionFlat_single_length folderCore Prod.fst files
    (fun r => by unfold folderCore; cases findFileByName files r.1 <;> simp)
  have hcont := sectionFlat_single_length contentCore Prod.fst files
    (fun r => by unfold contentCore; cases findFileByName files r.1 <;> simp)
  have hsplit := sectionFlat_single_length splitCore Prod.fst files
    (fun r => by unfold splitCore; cases findFileByName files r.1 <;> simp)
  have hcopy : ∀ l : List (String × List CopyLocation),
      (sectionFlat copyCore files l).length
        = (l.map (fun r => if (findFileByName files r.1).isSome then r.2.length else 0)).sum := by
    intro l
    induction l with
    | nil => rfl
    | cons r rs ih =>
      simp only [sectionFlat, List.map_cons, List.flatten_cons, List.length_append,
        List.sum_cons] at ih ⊢
      rw [ih]
      congr 1
      unfold copyCore
      cases h : findFileByName files r.1 with
      | none => simp [h]
      | some orig =>
        simp only [h, Option.isSome_some, if_pos]
        have hlen : ∀ l : List (Nat × CopyLocation),
            ((l.map (copyLocCore r.1 orig files)).flatten).length = l.length := by
          intro l
          induction l with
          | nil => rfl
          | cons a b ihb =>
            simp only [List.map_cons, List.flatten_cons, List.length_append, ihb]
            simp [copyLocCore]
            omega
        rw [hlen, List.enum_length]
  have hmerge : ∀ strategy (l : List (String × List String)),
      ((l.map (mergeCore strategy files)).flatten).length
        = (l.filter (fun r => !(r.2.filterMap (findFileByName files)).isEmpty)).length := by
    intro strategy l
    induction l with
    | nil => rfl
    | cons r rs ih =>
      simp only [List.map_cons, List.flatten_cons, List.length_append, List.filter_cons] at ih ⊢
      rw [ih]
      unfold mergeCore
      by_cases h : (r.2.filterMap (findFileByName files)).isEmpty = true
      · simp [h]
      · simp [h]
        omega
  have hopt : ∀ {α : Type} (coreApp : List FileRec → α → List (OpRecord × Bool))
      (g : α → Nat), (∀ a, (coreApp files a).length = g a) →
      ∀ o : Option α, (optCore coreApp files o).length = optNum g o := by
    intro α coreApp g hg o
    cases o <;> simp [optCore, optNum, hg]
  have hm := hopt (fun fs sec => (sec.entries.map (mergeCore sec.mergeStrategy fs)).flatten)
    (fun sec => (sec.entries.filter (fun r =>
      !(r.2.filterMap (findFileByName files)).isEmpty)).length)
    (fun sec => hmerge sec.mergeStrategy sec.entries) config.mergeFiles
  unfold dryCoreLog applicableCount
  simp only [List.length_append]
  rw [hopt (sectionFlat renameCore) _ hren, hopt (sectionFlat extensionCore) _ hext,
    hopt (sectionFlat folderCore) _ hfold, hopt (sectionFlat contentCore) _ hcont,
    hopt (sectionFlat copyCore) _ hcopy, hm, hopt (sectionFlat splitCore) _ hsplit]

/-- C4: For every configuration and initial working set, a dry run
leaves every FileRecord unchanged (the working set is literally the
input list, so no field is mutated and no record is added or removed),
produces exactly one log entry per applied rule instance (one per
resolvable rename / extension / folder / content / split rule, one per
destination of a resolvable copy rule, one per merge entry with a
resolvable source), and every log entry is marked dryRun. -/
theorem organize_dryRun_frame (files : List FileRec) (config : OrgConfig) (c : Nat) :
    (organizeFiles files config true c).1.files = files ∧
    (organizeFiles files config true c).1.log.length = applicableCount config files ∧
    (∀ e ∈ (organizeFiles files config true c).1.log, e.dryRun = true) := by
  obtain ⟨hf, hl, hd⟩ := runOperations_dry config { files := files, log := [], ctr := c }
  refine ⟨hf, ?_, ?_⟩
  · have hlen : (coreLog (organizeFiles files config true c).1.log).length
        = (dryCoreLog config files).length := by
      show (coreLog (runOperations config true { files := files, log := [], ctr := c }).log).length
        = (dryCoreLog config files).length
      rw [hl]
      simp [coreLog, hf]
    rw [← dryCoreLog_length config files, ← hlen]
    simp [coreLog]
  · intro e he
    rcases hd e he with h | h
    · exact absurd h (by simp)
    · exact h

/-- C5 (amended): the stamp-free projection of a dry-run log — every
field of every entry except the generated `id` and the timestamps — is
a function of the initial record list and the configuration alone: two
runs from any two stamp-source states produce core-identical logs. -/
theorem organize_dryRun_log_stamp_free (files : List FileRec) (config : OrgConfig) (c c' : Nat) :
    coreLog (organizeFiles files config true c).1.log
      = coreLog (organizeFiles files config true c').1.log := by
  obtain ⟨hf1, hl1, _⟩ := runOperations_dry config { files := files, log := [], ctr := c }
  obtain ⟨hf2, hl2, _⟩ := runOperations_dry config { files := files, log := [], ctr := c' }
  show coreLog (runOperations config true { files := files, log := [], ctr := c }).log
    = coreLog (runOperations config true { files := files, log := [], ctr := c' }).log
  rw [hl1, hl2]

/-! Serialization of the log, for the byte-identity counterexample:
renders every field of every entry, ids and timestamps included. -/

/-- Render an optional string as JSON-ish text. -/
def serializeOptStr : Option String → String
  | none => "undefined"
  | some s => s

/-- Render a content-update rule. -/
def serializeContentUpdate (u : ContentUpdate) : String :=
  (match u.replacements with
    | none => "undefined"
    | some reps => joinSep ";" (reps.map (fun r => r.find ++ "=>" ++ r.replace)))
  ++ "|" ++ (match u.addImports with
    | none => "undefined"
    | some imps => joinSep ";" imps)
  ++ "|" ++ serializeOptStr u.updatePackage

/-- Render one operation with all its fields. -/
def serializeOp : OpRecord → String
  | .rename a b ts => "rename:" ++ a ++ ">" ++ b ++ "@" ++ toString ts
  | .changeExtension a b c d ts =>
    "changeExtension:" ++ a ++ ">" ++ b ++ ":" ++ c ++ ">" ++ d ++ "@" ++ toString ts
  | .move a b c ts => "move:" ++ a ++ ">" ++ b ++ ":" ++ c ++ "@" ++ toString ts
  | .updateContent a u sb sa ts =>
    "updateContent:" ++ a ++ ":" ++ serializeContentUpdate u ++ ":" ++ toString sb
      ++ ">" ++ toString sa ++ "@" ++ toString ts
  | .copy a b c ts => "copy:" ++ a ++ ">" ++ b ++ ":" ++ c ++ "@" ++ toString ts
  | .merge srcs m strat ts =>
    "merge:" ++ joinSep "," srcs ++ ">" ++ m ++ ":" ++ serializeOptStr strat ++ "@" ++ toString ts
  | .split src outs strat ts =>
    "split:" ++ src ++ ">" ++ joinSep "," outs ++ ":" ++ strat ++ "@" ++ toString ts
  | .mergedInto m ts => "mergedInto:" ++ m ++ "@" ++ toString ts
  | .splitInto outs ts => "splitInto:" ++ joinSep "," outs ++ "@" ++ toString ts
  | .splitFromClass a b ts => "splitFromClass:" ++ a ++ ":" ++ b ++ "@" ++ toString ts
  | .splitFromPart a n ts => "splitFromPart:" ++ a ++ ":" ++ toString n ++ "@" ++ toString ts

/-- Render one log entry with all its fields. -/
def serializeEntry (e : LogEntry) : String :=
  serializeOp e.op ++ "|dryRun=" ++ toString e.dryRun ++ "|id=" ++ e.id

/-- Render a whole log. -/
def serializeLog (l : List LogEntry) : String :=
  joinSep "\n" (l.map serializeEntry)

/-- The record list and configuration of the idempotence counterexample. -/
def c5Files : List FileRec :=
  (loadFiles [{ fileName := "a.kt", extension := "kt", content := "x", size := 1, lines := 1 }] 0).1

/-- A one-rule dry-run configuration. -/
def c5Config : OrgConfig := { fileRenames := some [("a.kt", "B.kt")] }

/-- C5 (counterexample): running the same dry-run configuration twice on
the same record list — the second run starting from the stamp-source
state the first run left behind, as consecutive wall-clock runs do —
produces logs that are not byte-identical (their serializations differ
in the generated entry id and timestamp), refuting the claim as stated. -/
theorem organize_dryRun_log_not_byte_identical :
    serializeLog (organizeFiles c5Files c5Config true 1).1.log
      ≠ serializeLog (organizeFiles c5Files c5Config true
          ((organizeFiles c5Files c5Config true 1).1.ctr)).1.log := by
  decide

/-! ## Claims about the extractor -/

theorem sectionsGo_length (lines : List String) (hs : List (Nat × String)) :
    (sectionsGo lines hs).length = hs.length := by
  induction hs with
  | nil => rfl
  | cons h rest ih => simp [sectionsGo, ih]

theorem filterMap_extract_eq_map (l : List (String × String))
    (h : ∀ p ∈ l, p.2.isEmpty = false) :
    l.filterMap (extractFileSection false)
      = l.map (fun p => (⟨p.1, p.2⟩ : ExtractRecord)) := by
  induction l with
  | nil => rfl
  | cons p rest ih =>
    have hp := h p (List.mem_cons_self p rest)
    simp only [List.filterMap_cons, List.map_cons, extractFileSection, hp,
      Bool.false_eq_true, if_neg, if_false]
    rw [ih (fun q hq => h q (List.mem_cons_of_mem p hq))]

theorem headerTitleOf_startsNumbered {l : String} {t : String}
    (h : headerTitleOf l = some t) : startsNumbered l = true := by
  simp only [headerTitleOf] at h
  simp only [startsNumbered]
  split at h
  · exact absurd h (by simp)
  · rename_i hds
    rw [Bool.and_eq_true]
    refine ⟨by simpa using hds, ?_⟩
    split at h
    · rfl
    · exact absurd h (by simp)

/-- C1: on input whose lines are all header-safe, with at least one
numbered header and every section body non-empty after trimming,
extraction without a manifest returns exactly one record per header, in
header order, each with the trimmed between-headers text as content; with
`generateConfig` set it returns the same records with the synthesized
manifest record appended last; the number of records equals the number
of headers. -/
theorem extractFiles_wellFormed (input : String)
    (hne : (jsTrim input).isEmpty = false)
    (hsafe : ∀ l ∈ splitLines input, lineSafe l = true)
    (hhdr : headerIdxs (splitLines input) ≠ [])
    (hsec : ∀ p ∈ sectionsOf (splitLines input), p.2.isEmpty = false) :
    extractFiles input false false
      = .ok ((sectionsOf (splitLines input)).map (fun p => (⟨p.1, p.2⟩ : ExtractRecord)))
    ∧ extractFiles input true false
      = .ok ((sectionsOf (splitLines input)).map (fun p => (⟨p.1, p.2⟩ : ExtractRecord))
          ++ [generateConfigFile])
    ∧ (sectionsOf (splitLines input)).length = (headerIdxs (splitLines input)).length := by
  have hmap := filterMap_extract_eq_map (sectionsOf (splitLines input)) hsec
  have hlen : (sectionsOf (splitLines input)).length
      = (headerIdxs (splitLines input)).length := sectionsGo_length _ _
  have hnonempty : ((sectionsOf (splitLines input)).map
      (fun p => (⟨p.1, p.2⟩ : ExtractRecord))).isEmpty = false := by
    rw [List.isEmpty_eq_false_iff_exists_mem]
    have : (sectionsOf (splitLines input)).length ≠ 0 := by
      rw [hlen]
      intro h0
      exact hhdr (List.eq_nil_of_length_eq_zero h0)
    cases hq : sectionsOf (splitLines input) with
    | nil => rw [hq] at this; simp at this
    | cons a b =>
      exact ⟨⟨a.1, a.2⟩, List.mem_map_of_mem _ (List.mem_cons_self a b)⟩
  have hhdr' : (headerIdxs (splitLines input)).isEmpty = false := by
    cases hq : headerIdxs (splitLines input) with
    | nil => exact absurd hq hhdr
    | cons a b => rfl
  refine ⟨?_, ?_, hlen⟩
  · unfold extractFiles
    rw [if_neg (by simp [hne]), if_neg (by simp [hhdr']), hmap]
    simp
  · unfold extractFiles
    rw [if_neg (by simp [hne]), if_neg (by simp [hhdr']), hmap]
    simp [hnonempty]

/-- C1 witness: a two-header input with non-empty bodies. -/
theorem extractFiles_wellFormed_witness :
    extractFiles "1. A.kt\nhello\n2. B\nworld" false false
      = .ok [⟨"A.kt", "hello"⟩, ⟨"B", "world"⟩]
    ∧ extractFiles "1. A.kt\nhello\n2. B\nworld" true false
      = .ok [⟨"A.kt", "hello"⟩, ⟨"B", "world"⟩, generateConfigFile] := by
  obtain ⟨h1, h2, _⟩ := extractFiles_wellFormed "1. A.kt\nhello\n2. B\nworld"
    (by decide) (by decide) (by decide) (by decide)
  exact ⟨by rw [h1]; rfl, by rw [h2]; rfl⟩

theorem headerIdxs_nil (lines : List String)
    (h : ∀ l ∈ lines, startsNumbered l = false) : headerIdxs lines = [] := by
  unfold headerIdxs
  rw [List.filterMap_eq_nil_iff]
  intro p hp
  cases hq : headerTitleOf p.2 with
  | none => rfl
  | some t =>
    have hsn := headerTitleOf_startsNumbered hq
    rw [h p.2 (List.snd_mem_of_mem_enum hp)] at hsn
    exact absurd hsn (by simp)

/-- C2: on empty or whitespace-only input, extraction fails with the
empty-input error; on input that is not whitespace-only and has no line
starting with a numbered-header prefix, it fails with the
no-headers-found error; in both cases no records are produced. -/
theorem extractFiles_errors (input : String) (generateConfig cleanOpt : Bool) :
    ((jsTrim input).isEmpty = true →
      extractFiles input generateConfig cleanOpt = .error .emptyInput)
    ∧ ((jsTrim input).isEmpty = false →
      (∀ l ∈ splitLines input, startsNumbered l = false) →
      extractFiles input generateConfig cleanOpt = .error .noHeadersFound) := by
  constructor
  · intro h
    unfold extractFiles
    rw [if_pos h]
  · intro h hlines
    unfold extractFiles
    rw [if_neg (by simp [h])]
    simp only [headerIdxs_nil _ hlines]
    simp

/-- C2 witness: the empty input and a header-free input. -/
theorem extractFiles_errors_witness :
    extractFiles "" true true = .error .emptyInput
    ∧ extractFiles "no headers here" true true = .error .noHeadersFound :=
  ⟨(extractFiles_errors "" true true).1 (by decide),
   (extractFiles_errors "no headers here" true true).2 (by decide) (by decide)⟩

/-! ## Claims about the organizer pipeline -/

/-- The working set of the rename/folder-mapping interaction scenario:
one loaded file named `a.kt`. -/
def c3Files : List FileRec :=
  (loadFiles [{ fileName := "a.kt", extension := "kt", content := "fun main", size := 8, lines := 1 }] 0).1

/-- The scenario configuration: a rename of `a.kt` and a folder mapping
still keyed by the pre-rename name. -/
def c3Config : OrgConfig :=
  { fileRenames := some [("a.kt", "B.kt")], folderMappings := some [("a.kt", "src")] }

/-- C3: fileRenames applies before folderMappings, and the folder
mapping keyed by the pre-rename name `a.kt` still resolves (through the
record's immutable `originalPath`) to the renamed file, placing the
renamed name under the folder: the final working set is exactly one
record with fileName `B.kt` and currentPath `src/B.kt` — not an
orphaned mapping and not `src/a.kt`. -/
theorem rename_then_folderMapping_path :
    ((organizeFiles c3Files c3Config false 1).1.files.map
      (fun f => (f.fileName, f.currentPath, f.status)))
      = [("B.kt", "src/B.kt", "moved")] := by decide

/-- First merge source of the package_merge scenario. -/
def c6FileA : FileRec :=
  { id := "f1", fileName := "A.kt", currentPath := "A.kt", originalPath := some "A.kt",
    extension := "kt",
    content := "package com.a;\nimport java.util.List;\nimport java.io.File;\nclass A",
    size := 70, lines := 4, operations := [], status := "pending" }

/-- Second merge source, sharing the `java.util.List` import with the first. -/
def c6FileB : FileRec :=
  { c6FileA with
    id := "f2", fileName := "B.kt", currentPath := "B.kt",
    originalPath := some "B.kt",
    content := "package com.b;\nimport java.util.List;\nclass B" }

/-- C6: merging two sources that share an import line with the
`package_merge` strategy produces a merged record whose content contains
that import exactly once: the package comes from the first source, the
imports are de-duplicated keeping first-occurrence order, the
package/import lines are stripped from the bodies, and the merged record
is appended with status `merged`. -/
theorem package_merge_dedups_imports :
    ((applyMergeFiles
        { entries := [("Merged.kt", ["A.kt", "B.kt"])], mergeStrategy := some "package_merge" }
        false { files := [c6FileA, c6FileB], log := [], ctr := 0 }).files.get? 2).map
      (fun f => (f.fileName, f.status, countOcc "import java.util.List;" f.content, f.content))
      = some ("Merged.kt", "merged", 1,
        "package com.a;\nimport java.util.List;\nimport java.io.File;\nclass A\n\nclass B") := by
  decide

/-- C7: any configuration whose folderMappings section contains an
unsafe folder value (containing `..` or starting with `/`) is rejected
by the validator with `isValid = false` and a non-empty error list, and
`loadConfig` throws on it, so the organizer can never be run with such a
configuration through the normal flow. -/
theorem validator_rejects_unsafe_folder (config : OrgConfig) (fm : List (String × String))
    (hfm : config.folderMappings = some fm)
    (hbadpath : ∃ r ∈ fm, unsafeFolderPath r.2 = true) :
    (validateAndNormalizeConfig config).isValid = false
    ∧ (validateAndNormalizeConfig config).errors ≠ []
    ∧ ∃ msg, loadConfig config = .error msg := by
  obtain ⟨r, hr, hu⟩ := hbadpath
  have hmem : ("Path non sicuro in folderMappings: " ++ r.2) ∈ folderMappingErrors fm :=
    List.mem_filterMap.mpr ⟨r, hr, by simp [hu]⟩
  have herrmem : ("Path non sicuro in folderMappings: " ++ r.2)
      ∈ (validateAndNormalizeConfig config).errors := by
    simp only [validateAndNormalizeConfig, hfm]
    exact List.mem_append.mpr (Or.inl (List.mem_append.mpr (Or.inr hmem)))
  have hne : (validateAndNormalizeConfig config).errors ≠ [] :=
    List.ne_nil_of_mem herrmem
  have hvalid : (validateAndNormalizeConfig config).isValid = false := by
    have : (validateAndNormalizeConfig config).isValid
        = (validateAndNormalizeConfig config).errors.isEmpty := rfl
    rw [this]
    cases hq : (validateAndNormalizeConfig config).errors with
    | nil => exact absurd hq hne
    | cons a b => rfl
  refine ⟨hvalid, hne, ?_⟩
  refine ⟨"Configurazione non valida: "
    ++ joinSep ", " (validateAndNormalizeConfig config).errors, ?_⟩
  unfold loadConfig
  rw [if_neg (by simp [hvalid])]

/-- C7 witness: the `"../etc"` mapping of the spec's safety property. -/
theorem validator_rejects_unsafe_folder_witness :
    (validateAndNormalizeConfig { folderMappings := some [("a.kt", "../etc")] }).isValid = false
    ∧ (validateAndNormalizeConfig { folderMappings := some [("a.kt", "../etc")] }).errors ≠ []
    ∧ ∃ msg, loadConfig { folderMappings := some [("a.kt", "../etc")] } = .error msg :=
  validator_rejects_unsafe_folder { folderMappings := some [("a.kt", "../etc")] }
    [("a.kt", "../etc")] rfl ⟨("a.kt", "../etc"), by decide, by decide⟩

/-! ## Post-run duplicate detection (C8) -/

theorem strData_append (a b : String) : (a ++ b).data = a.data ++ b.data := rfl

theorem litPrefix_append_self (pat r : List Char) : litPrefix pat (pat ++ r) = true := by
  induction pat with
  | nil => rfl
  | cons p ps ih => simp [litPrefix, ih]

theorem occursIn_of_prefix (pat r : List Char) : occursIn pat (pat ++ r) = true := by
  cases pat with
  | nil =>
    cases r with
    | nil => rfl
    | cons c cs => simp [occursIn, litPrefix]
  | cons p ps =>
    simp only [List.cons_append, occursIn, Bool.or_eq_true]
    exact Or.inl (by simpa using litPrefix_append_self (p :: ps) r)

theorem occursIn_append_left (pat x y : List Char) (h : occursIn pat y = true) :
    occursIn pat (x ++ y) = true := by
  induction x with
  | nil => simpa using h
  | cons c cs ih => simp [occursIn, ih]

theorem hasSubstr_joinSep (sep : String) (l : List String) (p : String) (hp : p ∈ l) :
    hasSubstr (joinSep sep l) p = true := by
  induction l with
  | nil => exact absurd hp (List.not_mem_nil p)
  | cons a rest ih =>
    cases rest with
    | nil =>
      have : p = a := by simpa using hp
      subst this
      show occursIn p.data (joinSep sep [p]).data = true
      have : (joinSep sep [p]).data = p.data ++ [] := by simp [joinSep]
      rw [this]
      exact occursIn_of_prefix p.data []
    | cons b t =>
      rcases List.mem_cons.mp hp with h1 | h2
      · subst h1
        show occursIn p.data (joinSep sep (p :: b :: t)).data = true
        have : (joinSep sep (p :: b :: t)).data
            = p.data ++ (sep ++ joinSep sep (b :: t)).data := by
          show (p ++ sep ++ joinSep sep (b :: t)).data = _
          rw [strData_append, strData_append, strData_append, List.append_assoc]
        rw [this]
        exact occursIn_of_prefix p.data _
      · show occursIn p.data (joinSep sep (a :: b :: t)).data = true
        have : (joinSep sep (a :: b :: t)).data
            = (a ++ sep).data ++ (joinSep sep (b :: t)).data := by
          show (a ++ sep ++ joinSep sep (b :: t)).data = _
          rw [strData_append, strData_append]
        rw [this]
        exact occursIn_append_left _ _ _ (ih h2)

theorem mem_dedupFirstGo (fuel : Nat) : ∀ (l : List String) (p : String),
    l.length ≤ fuel → p ∈ l → p ∈ dedupFirstGo fuel l := by
  induction fuel with
  | zero =>
    intro l p hlen hp
    cases l with
    | nil => exact absurd hp (List.not_mem_nil p)
    | cons a t => simp at hlen
  | succ n ih =>
    intro l p hlen hp
    cases l with
    | nil => exact absurd hp (List.not_mem_nil p)
    | cons a t =>
      simp only [dedupFirstGo]
      by_cases hpa : p = a
      · subst hpa; exact List.mem_cons_self _ _
      · have hpt : p ∈ t := by
          rcases List.mem_cons.mp hp with h1 | h2
          · exact absurd h1 hpa
          · exact h2
        refine List.mem_cons_of_mem a (ih _ p ?_ ?_)
        · calc (t.filter (fun x => x ≠ a)).length ≤ t.length := List.length_filter_le _ _
            _ ≤ n := by simpa using hlen
        · exact List.mem_filter.mpr ⟨hpt, by simp [hpa]⟩

theorem mem_dedupFirst {p : String} {l : List String} (hp : p ∈ l) : p ∈ dedupFirst l :=
  mem_dedupFirstGo l.length l p (le_refl _) hp

theorem indexOf_le_of_get (l : List String) (i : Nat) (hi : i < l.length) :
    l.indexOf (l.get ⟨i, hi⟩) ≤ i := by
  induction l generalizing i with
  | nil => simp at hi
  | cons a t ih =>
    cases i with
    | zero => simp [List.indexOf_cons]
    | succ n =>
      have hn : n < t.length := by simpa using hi
      have hget : (a :: t).get ⟨n + 1, hi⟩ = t.get ⟨n, hn⟩ := rfl
      rw [hget, List.indexOf_cons]
      simp only [List.get_eq_getElem]
      by_cases hae : (a == t[n]) = true
      · simp [hae]
      · have hf : (a == t[n]) = false := by simpa using hae
        simp only [hf, cond_false]
        have h2 := ih n hn
        simp only [List.get_eq_getElem] at h2
        omega

/-- C8: after organization, whenever two live (non-`*_source`-status)
records share the same `currentPath`, the post-run validation report has
a non-empty `errors` list and one of its entries names the duplicated
path; validation is a pure report (it neither throws nor touches the
working set, which `organizeFiles` returns unchanged alongside it). -/
theorem postRun_duplicate_detected (files : List FileRec) (i j : Nat)
    (hij : i < j) (hj : j < files.length)
    (hlivei : strEndsWith (files.get ⟨i, lt_trans hij hj⟩).status "_source" = false)
    (hlivej : strEndsWith (files.get ⟨j, hj⟩).status "_source" = false)
    (hdup : (files.get ⟨i, lt_trans hij hj⟩).currentPath = (files.get ⟨j, hj⟩).currentPath) :
    (validateOrganizationResults files).errors ≠ []
    ∧ ∃ e ∈ (validateOrganizationResults files).errors,
        hasSubstr e ((files.get ⟨j, hj⟩).currentPath) = true := by
  have hi : i < files.length := lt_trans hij hj
  set names := files.map (fun f => f.currentPath) with hnames
  have hlen : names.length = files.length := List.length_map _ _
  have hjn : j < names.length := by rw [hlen]; exact hj
  have hin : i < names.length := by rw [hlen]; exact hi
  have hgetj : names.get ⟨j, hjn⟩ = (files.get ⟨j, hj⟩).currentPath := by
    simp [hnames]
  have hgeti : names.get ⟨i, hin⟩ = (files.get ⟨i, hi⟩).currentPath := by
    simp [hnames]
  have hidx : names.indexOf (names.get ⟨j, hjn⟩) ≤ i := by
    have h1 := indexOf_le_of_get names i hin
    rw [hgeti, hdup, ← hgetj] at h1
    exact h1
  have hcond : names.indexOf (names.get ⟨j, hjn⟩) ≠ j := by omega
  have henum : (j, names.get ⟨j, hjn⟩) ∈ names.enum := by
    rw [List.mem_enum_iff_getElem?]
    simp [List.getElem?_eq_getElem hjn, List.get_eq_getElem]
  have hdupmem : names.get ⟨j, hjn⟩
      ∈ (names.enum.filter (fun p => names.indexOf p.2 ≠ p.1)).map (fun p => p.2) := by
    refine List.mem_map_of_mem _ (List.mem_filter.mpr ⟨henum, ?_⟩)
    simpa using hcond
  set duplicates := (names.enum.filter (fun p => names.indexOf p.2 ≠ p.1)).map (fun p => p.2)
    with hdups
  have hdne : duplicates.isEmpty = false := by
    cases hq : duplicates with
    | nil => rw [hq] at hdupmem; exact absurd hdupmem (List.not_mem_nil _)
    | cons a b => rfl
  have herrs : (validateOrganizationResults files).errors
      = ["File duplicati: " ++ joinSep ", " (dedupFirst duplicates)]
        ++ (if (files.filter (fun f => (jsTrim f.currentPath).isEmpty)).isEmpty then []
            else [toString (files.filter (fun f =>
              (jsTrim f.currentPath).isEmpty)).length ++ " file con path non validi"]) := by
    simp only [validateOrganizationResults, ← hnames, ← hdups, hdne, Bool.false_eq_true,
      if_false, if_neg]
  have hmsg : ("File duplicati: " ++ joinSep ", " (dedupFirst duplicates))
      ∈ (validateOrganizationResults files).errors := by
    rw [herrs]
    exact List.mem_append.mpr (Or.inl (List.mem_singleton.mpr rfl))
  refine ⟨List.ne_nil_of_mem hmsg, ?_⟩
  refine ⟨"File duplicati: " ++ joinSep ", " (dedupFirst duplicates), hmsg, ?_⟩
  show occursIn ((files.get ⟨j, hj⟩).currentPath).data
    (("File duplicati: " ++ joinSep ", " (dedupFirst duplicates)).data) = true
  rw [strData_append]
  refine occursIn_append_left _ _ _ ?_
  have : hasSubstr (joinSep ", " (dedupFirst duplicates)) ((files.get ⟨j, hj⟩).currentPath)
      = true := by
    refine hasSubstr_joinSep ", " _ _ ?_
    rw [← hgetj]
    exact mem_dedupFirst hdupmem
  exact this

/-- C8 witness: two live records sharing the path `same.kt`. -/
theorem postRun_duplicate_detected_witness :
    (validateOrganizationResults [{ c6FileA with currentPath := "same.kt" },
        { c6FileB with currentPath := "same.kt" }]).errors ≠ []
    ∧ ∃ e ∈ (validateOrganizationResults [{ c6FileA with currentPath := "same.kt" },
        { c6FileB with currentPath := "same.kt" }]).errors,
        hasSubstr e (([{ c6FileA with currentPath := "same.kt" },
          { c6FileB with currentPath := "same.kt" }].get
            ⟨1, by decide⟩ : FileRec).currentPath) = true :=
  postRun_duplicate_detected
    [{ c6FileA with currentPath := "same.kt" }, { c6FileB with currentPath := "same.kt" }]
    0 1 (by decide) (by decide) (by decide) (by decide) (by decide)

/-! ## Content updates: regex vs literal find/replace (C9) -/

theorem dotMatchPat_eq_dropPref (pat : List Char) (hdot : ∀ c ∈ pat, c ≠ '.') :
    ∀ s : List Char, dotMatchPat pat s = dropPref pat s := by
  induction pat with
  | nil => intro s; rfl
  | cons p ps ih =>
    intro s
    cases s with
    | nil => rfl
    | cons c cs =>
      have hp : p ≠ '.' := hdot p (List.mem_cons_self p ps)
      have hpc : patChar p c = (p == c) := by simp [patChar, hp]
      simp only [dotMatchPat, dropPref, hpc]
      by_cases h : p = c
      · rw [if_pos (by simpa using h), if_pos h]
        exact ih (fun d hd => hdot d (List.mem_cons_of_mem p hd)) cs
      · rw [if_neg (by simpa using h), if_neg h]

theorem gReplaceAuxGo_eq_lit (p : Char) (ps repl : List Char)
    (hdot : ∀ c ∈ p :: ps, c ≠ '.') :
    ∀ (fuel : Nat) (s : List Char),
      gReplaceAuxGo p ps repl fuel s = litReplaceAuxGo p ps repl fuel s := by
  intro fuel
  induction fuel with
  | zero => intro s; cases s <;> rfl
  | succ n ih =>
    intro s
    cases s with
    | nil => rfl
    | cons c cs =>
      simp only [gReplaceAuxGo, litReplaceAuxGo, dotMatchPat_eq_dropPref (p :: ps) hdot]
      cases dropPref (p :: ps) (c :: cs) with
      | none => simp [ih]
      | some r => simp [ih]

/-- For a find string with no regex metacharacter, the source's
`new RegExp(find, "g")` replacement coincides with the spec's literal
global replacement. -/
theorem jsGlobalReplace_eq_literal (pat repl s : String) (h : noMeta pat = true) :
    jsGlobalReplace pat repl s = literalReplaceAll pat repl s := by
  unfold jsGlobalReplace literalReplaceAll
  cases hp : pat.data with
  | nil => rfl
  | cons p ps =>
    have hdot : ∀ c ∈ p :: ps, c ≠ '.' := by
      intro c hc
      have : ∀ c ∈ pat.data, !regexMetaChars.contains c = true := by
        simpa [noMeta, List.all_eq_true] using h
      have hcm := this c (by rw [hp]; exact hc)
      intro hcd
      subst hcd
      simp [regexMetaChars] at hcm
    show ({ data := gReplaceAuxGo p ps repl.data s.data.length s.data } : String)
      = { data := litReplaceAuxGo p ps repl.data s.data.length s.data }
    rw [gReplaceAuxGo_eq_lit p ps repl.data hdot]

theorem replacements_literal (reps : List Replacement)
    (hmeta : ∀ r ∈ reps, noMeta r.find = true) :
    ∀ c : String,
      reps.foldl (fun c r => jsGlobalReplace r.find r.replace c) c
        = reps.foldl (fun c r => literalReplaceAll r.find r.replace c) c := by
  induction reps with
  | nil => intro c; rfl
  | cons r rest ih =>
    intro c
    simp only [List.foldl_cons]
    rw [jsGlobalReplace_eq_literal r.find r.replace c (hmeta r (List.mem_cons_self r rest))]
    exact ih (fun q hq => hmeta q (List.mem_cons_of_mem r hq)) _

theorem updateFirst_mem_of_find? {p : FileRec → Bool} {g : FileRec → FileRec}
    {l : List FileRec} {f : FileRec} (h : l.find? p = some f) :
    g f ∈ updateFirst p g l := by
  induction l with
  | nil => simp [List.find?] at h
  | cons a t ih =>
    by_cases hp : p a = true
    · rw [List.find?_cons_of_pos _ hp] at h
      cases h
      simp [updateFirst, hp]
    · rw [List.find?_cons_of_neg _ hp] at h
      simp only [updateFirst, hp, Bool.false_eq_true, if_false, if_neg]
      exact List.mem_cons_of_mem a (ih h)

/-- C9 (amended): for a contentUpdates rule whose find strings contain
no regex metacharacter, the pairs are applied in listed order with
literal global semantics (the source compiles `find` as a regular
expression, which coincides with literal matching exactly on this
fragment); the updated record's size is recomputed from the new content
and its status set to `content_updated`. -/
theorem contentUpdates_literal_for_plain_finds (st : OrgState) (key : String)
    (u : ContentUpdate) (reps : List Replacement) (f : FileRec)
    (hrep : u.replacements = some reps) (himp : u.addImports = none)
    (hpkg : u.updatePackage = none)
    (hmeta : ∀ r ∈ reps, noMeta r.find = true)
    (hfind : findFileByName st.files key = some f) :
    ∃ f' ∈ (applyContentUpdates [(key, u)] false st).files,
      f'.id = f.id
      ∧ f'.content = reps.foldl (fun c r => literalReplaceAll r.find r.replace c) f.content
      ∧ f'.size = f'.content.utf8ByteSize
      ∧ f'.status = "content_updated" := by
  have hres : contentUpdateResult u f.content
      = reps.foldl (fun c r => literalReplaceAll r.find r.replace c) f.content := by
    unfold contentUpdateResult
    rw [hrep, himp, hpkg]
    exact replacements_literal reps hmeta f.content
  have heq : applyContentUpdates [(key, u)] false st = contentStep false st (key, u) := rfl
  rw [heq]
  unfold contentStep
  rw [hfind]
  refine ⟨_, updateFirst_mem_of_find? hfind, rfl, ?_, rfl, rfl⟩
  exact hres

/-- C9 (amended) witness: a literal one-word replacement. -/
theorem contentUpdates_literal_witness :
    ∃ f' ∈ (applyContentUpdates
        [("A.kt", { replacements := some [{ find := "class", replace := "object" }] })]
        false { files := [c6FileA], log := [], ctr := 0 }).files,
      f'.id = c6FileA.id
      ∧ f'.content = [({ find := "class", replace := "object" } : Replacement)].foldl
          (fun c r => literalReplaceAll r.find r.replace c) c6FileA.content
      ∧ f'.size = f'.content.utf8ByteSize
      ∧ f'.status = "content_updated" :=
  contentUpdates_literal_for_plain_finds _ "A.kt" _ _ c6FileA rfl rfl rfl
    (by decide) (by decide)

/-- The record of the literal-semantics counterexample. -/
def c9File : FileRec :=
  { id := "f9", fileName := "F.kt", currentPath := "F.kt", originalPath := some "F.kt",
    extension := "kt", content := "axb", size := 3, lines := 1,
    operations := [], status := "pending" }

/-- C9 (counterexample): the source compiles `find` with `new RegExp`,
so the pattern `a.b` matches `axb` and the rule rewrites the content to
`Z`, whereas the claimed literal (non-regex) semantics would leave `axb`
unchanged — the claim as stated is false. -/
theorem contentUpdates_not_literal :
    ((applyContentUpdates [("F.kt",
        { replacements := some [{ find := "a.b", replace := "Z" }] })]
        false { files := [c9File], log := [], ctr := 0 }).files.map
      (fun f => (f.content, f.status)))
      = [("Z", "content_updated")]
    ∧ literalReplaceAll "a.b" "Z" "axb" = "axb"
    ∧ ("Z" : String) ≠ "axb" := by decide

/-! ## Extension changes derive the new name from the rule key (C10) -/

/-- C10: for every record resolved by an extensionChanges rule, the new
file name is `base(key) + "." + newExtension` where `base(key)` is the
rule's key up to its last dot — not the record's current file name.  In
particular a key equal to the record's `originalPath` after a prior
rename resets fileName and currentPath to the original base name with
the new extension (silently undoing the rename), and a key with no dot
yields the empty base, i.e. a file name of the form `.newExtension`. -/
theorem extensionChange_uses_rule_key (st : OrgState) (key ext : String) (f : FileRec)
    (hfind : findFileByName st.files key = some f) :
    ∃ f' ∈ (applyExtensionChanges [(key, ext)] false st).files,
      f'.id = f.id
      ∧ f'.fileName = baseNameBeforeLastDot key ++ "." ++ ext
      ∧ f'.currentPath = f'.fileName
      ∧ f'.extension = ext
      ∧ f'.status = "extension_changed" := by
  have heq : applyExtensionChanges [(key, ext)] false st = extensionStep false st (key, ext) := rfl
  rw [heq]
  unfold extensionStep
  rw [hfind]
  exact ⟨_, updateFirst_mem_of_find? hfind, rfl, rfl, rfl, rfl, rfl⟩

/-- The scenario state of the C10 witness: `a.kt` loaded and already
renamed to `B.kt`. -/
def c10Start : OrgState :=
  applyFileRenames [("a.kt", "B.kt")] false
    { files := (loadFiles
        [{ fileName := "a.kt", extension := "kt", content := "fun main", size := 8, lines := 1 }]
        0).1,
      log := [], ctr := 1 }

/-- The renamed record sitting in `c10Start`. -/
def c10Renamed : FileRec :=
  { id := "file_0", fileName := "B.kt", currentPath := "B.kt",
    originalPath := some "a.kt", extension := "kt", content := "fun main",
    size := 8, lines := 1, operations := [.rename "a.kt" "B.kt" 1], status := "renamed" }

/-- C10 witness: the extension change keyed by the pre-rename name
`a.kt` resolves to the renamed record and resets its name to `a.java`
(the key's base, undoing the rename); and a dotless key would produce
the empty base, i.e. the name `.txt`. -/
theorem extensionChange_uses_rule_key_witness :
    (∃ f' ∈ (applyExtensionChanges [("a.kt", "java")] false c10Start).files,
      f'.id = c10Renamed.id
      ∧ f'.fileName = baseNameBeforeLastDot "a.kt" ++ "." ++ "java"
      ∧ f'.currentPath = f'.fileName
      ∧ f'.extension = "java"
      ∧ f'.status = "extension_changed")
    ∧ baseNameBeforeLastDot "a.kt" ++ "." ++ "java" = "a.java"
    ∧ baseNameBeforeLastDot "README" ++ "." ++ "txt" = ".txt" :=
  ⟨extensionChange_uses_rule_key c10Start "a.kt" "java" c10Renamed (by decide),
   by decide, by decide⟩
